import Mathlib

/-!
Shallow embedding of the forward-search core of Nominatim
(`nominatim_api/search`): the ICU query tokenizer, the token-assignment
enumerator and the `NearSearch` anchor selection, together with theorems
checking the natural-language specification against this embedding.

Python floats are modelled as rationals (`ℚ`), Python ints as `ℤ` or `ℕ`
as appropriate.  Python's `end` field of `TokenRange` is called `stop`
here because `end` is a Lean keyword.
-/

namespace Nominatim

/-- Token types, from `nominatim_api/search/query.py`.  The constructor
`part` models `TOKEN_PARTIAL`, `nearItem` models `TOKEN_NEAR_ITEM`. -/
inductive TokenType where
  | word
  | part
  | housenumber
  | postcode
  | country
  | nearItem
  | qualifier
deriving DecidableEq, Repr

/-- Modelled from the spec: "Token slots are identified by a half-open
`[start, end)` TokenRange" (the class lives in `query.py`, which is not
part of the sources at hand).  The Python field `end` is called `stop`. -/
structure TokenRange where
  start : Nat
  stop : Nat
deriving DecidableEq, Repr

namespace TokenRange

/-- Modelled from the spec: `TokenRange.replace_end` returns the range with
a new end position. -/
def replace_end (r : TokenRange) (new_end : Nat) : TokenRange :=
  { r with stop := new_end }

/-- Modelled from the spec: `TokenRange.split(i)` splits the half-open
range at an interior position into two adjoining halves. -/
def split (r : TokenRange) (i : Nat) : TokenRange × TokenRange :=
  (⟨r.start, i⟩, ⟨i, r.stop⟩)

/-- Modelled from the spec: ranges are ordered; `r < r2` holds when `r`
lies completely before `r2` (Python `__lt__`: `self.end <= other.start`). -/
def lt (r other : TokenRange) : Bool :=
  r.stop ≤ other.start

/-- Modelled from the spec: Python `__gt__`: `self.start >= other.end`. -/
def gt (r other : TokenRange) : Bool :=
  r.start ≥ other.stop

end TokenRange

/-- A token range together with a token type
(`token_assignment.TypedRange`). -/
structure TypedRange where
  ttype : TokenType
  trange : TokenRange
deriving DecidableEq, Repr

/-- Optional `info` payload of a row of the `word` table; only the keys
read by `ICUToken.from_db_row` are modelled. -/
structure RowInfo where
  count : Option Int
  addr_count : Option Int
  lookup : Option String
deriving DecidableEq, Repr

/-- A row of the `word` table as consumed by `ICUToken.from_db_row`.
`word` is a nullable column, hence an `Option`. -/
structure WordRow where
  word_id : Int
  word_token : String
  type : String
  word : Option String
  info : Option RowInfo
deriving DecidableEq, Repr

/-- Break types of query nodes (`query.py` constants `BREAK_*`).
`breakStart`/`breakEnd` model `BREAK_START`/`BREAK_END`. -/
inductive BreakType where
  | breakStart
  | breakEnd
  | phrase
  | softPhrase
  | word
  | part
  | token
deriving DecidableEq, Repr

/-- The fixed break-penalty table `PENALTY_IN_TOKEN_BREAK` of
`icu_tokenizer.py`. -/
def PENALTY_IN_TOKEN_BREAK : BreakType → ℚ
  | .breakStart => 1/2
  | .breakEnd => 1/2
  | .phrase => 1/2
  | .softPhrase => 1/2
  | .word => 1/10
  | .part => 0
  | .token => 0

/-- `icu_tokenizer.QueryPart`: normalized and transliterated form of a
single term of the query. -/
structure QueryPart where
  token : String
  normalized : String
  penalty : ℚ
deriving DecidableEq, Repr

/-- One entry appended to the word-lookup dictionary by `extract_words`:
the space-joined lookup string together with the token range (including
the accumulated window penalty, which `extract_words` stores on the
range). -/
structure WordEntry where
  word : String
  trange : TokenRange
  wpenalty : ℚ
deriving DecidableEq, Repr

/-- `word = ' '.join((word, terms[last].token))` in `extract_words`. -/
def joinWord (terms : List QueryPart) (word : String) (last : Nat) : String :=
  word ++ " " ++ (((terms.get? last).map QueryPart.token).getD "")

/-- `penalty += terms[last - 1].penalty` in `extract_words`. -/
def addBreakPen (terms : List QueryPart) (penalty : ℚ) (last : Nat) : ℚ :=
  penalty + (((terms.get? (last - 1)).map QueryPart.penalty).getD 0)

/-- Inner loop of `extract_words`: `for last in range(first + 1,
min(first + 20, total))`, extending the joined word and accumulating the
break penalty; the second argument is the loop variable `last`, the
third the number of remaining iterations. -/
def extractInner (terms : List QueryPart) (first : Nat) (word : String) (penalty : ℚ) :
    Nat → Nat → List WordEntry
  | _, 0 => []
  | last, c + 1 =>
    ⟨joinWord terms word last, ⟨first, last + 1⟩, addBreakPen terms penalty last⟩ ::
      extractInner terms first (joinWord terms word last) (addBreakPen terms penalty last)
        (last + 1) c

/-- Outer loop of `extract_words`: `for first in range(start, total)`;
`count` is the number of remaining iterations. -/
def extractOuter (terms : List QueryPart) : Nat → Nat → List WordEntry
  | _, 0 => []
  | first, c + 1 =>
    ⟨(((terms.get? first).map QueryPart.token).getD ""), ⟨first, first + 1⟩,
        PENALTY_IN_TOKEN_BREAK .word⟩ ::
      (extractInner terms first (((terms.get? first).map QueryPart.token).getD "")
          (PENALTY_IN_TOKEN_BREAK .word)
          (first + 1) (min (first + 20) terms.length - (first + 1))
        ++ extractOuter terms (first + 1) c)

/-- `icu_tokenizer.extract_words`: add all combinations of words in the
terms list after the given position to the word list.  The model returns
the list of all entries appended to the word dictionary. -/
def extract_words (terms : List QueryPart) (start : Nat) : List WordEntry :=
  extractOuter terms start (terms.length - start)

/-- `icu_tokenizer.ICUToken` restricted to the fields the modelled code
reads (the specialised token of the ICU tokenizer). -/
structure ICUToken where
  penalty : ℚ
  token : Int
  count : Int
  addr_count : Int
  lookup_word : String
  word_token : String
  info : Option RowInfo
deriving DecidableEq, Repr, Inhabited

/-- `lookup_word.split('@', 1)[0]`: the part of the string before the
first `@`, or the whole string. -/
def beforeAt (s : String) : String :=
  ((s.splitOn "@").headD s)

/-- `ICUToken.from_db_row` from `icu_tokenizer.py`: create an `ICUToken`
from a row of the word table, computing the per-type base penalty,
the lookup word and the clamped frequency counts. -/
def ICUToken.from_db_row (row : WordRow) (base_penalty : ℚ) : ICUToken :=
  let count : Int := match row.info with
    | none => 1
    | some info => info.count.getD 1
  let addr_count : Int := match row.info with
    | none => 1
    | some info => info.addr_count.getD 1
  let penalty : ℚ := base_penalty +
    (if row.type = "w" then 3/10
     else if row.type = "W" then
       (if row.word_token.length = 1 ∧ row.word = some row.word_token then
          (if row.word_token.toList.all Char.isDigit ∧ row.word_token ≠ ""
           then 2/10 else 3/10)
        else 0)
     else if row.type = "H" then
       ((row.word_token.toList.filter (fun c => c ≠ ' ' ∧ ¬ c.isDigit)).length : ℚ) * (1/10)
       + (if row.word_token.toList.all (fun c => ¬ c.isDigit) then
            (2/10) * ((row.word_token.length : ℚ) - 1)
          else 0)
     else if row.type = "C" then
       (if row.word_token.length = 1 then 3/10 else 0)
     else 0)
  let lookup0 : Option String := match row.info with
    | none => row.word
    | some info => match info.lookup with
      | some l => some l
      | none => row.word
  let lookup_word : String := match lookup0 with
    | some l => if l ≠ "" then beforeAt l else row.word_token
    | none => row.word_token
  { penalty := penalty, token := row.word_id, count := max 1 count,
    lookup_word := lookup_word, word_token := row.word_token,
    info := row.info, addr_count := max 1 addr_count }

/-- Phrase types (`query.py` constants `PHRASE_*`); `any` models
`PHRASE_ANY`. -/
inductive PhraseType where
  | any
  | amenity
  | street
  | city
  | county
  | state
  | postcodePh
  | countryPh
  | housenumberPh
deriving DecidableEq, Repr

/-- A token list at a query node: tokens sharing the same range and
type.  Modelled from the spec: "A TokenList at a node groups tokens that
share both the same range and the same type" (`query.py`).  `stop`
models the `end` of the shared range. -/
structure TokenList where
  ttype : TokenType
  stop : Nat
  tokens : List ICUToken
deriving DecidableEq, Repr

/-- Modelled from the spec: `TokenList.add_penalty` adds a penalty to
every token of the list. -/
def TokenList.add_penalty (tl : TokenList) (pen : ℚ) : TokenList :=
  { tl with tokens := tl.tokens.map (fun t => { t with penalty := t.penalty + pen }) }

/-- A break node of the token graph (`query.QueryNode`), restricted to
the fields the modelled code reads.  `hasPartialTok` models
`node.partial is not None`. -/
structure QueryNode where
  btype : BreakType
  ptype : PhraseType
  word_break_penalty : ℚ
  starting : List TokenList
  hasPartialTok : Bool
deriving DecidableEq, Repr

/-- Modelled from the spec: `QueryNode.has_tokens(end, ttype)` tells
whether some token list starting at the node ends at `stop` and has the
given type. -/
def QueryNode.has_tokens (node : QueryNode) (stop : Nat) (tt : TokenType) : Bool :=
  node.starting.any (fun tl => tl.stop = stop ∧ tl.ttype = tt)

/-- `part.token.isdigit()`: true on a non-empty all-digit string. -/
def strIsdigit (s : String) : Bool :=
  s ≠ "" && s.toList.all Char.isDigit

/-- The synthetic housenumber token built by
`ICUQueryAnalyzer.add_extra_tokens`. -/
def mkSyntheticHN (tok : String) : ICUToken :=
  { penalty := 1/2, token := 0, count := 1, addr_count := 1,
    lookup_word := tok, word_token := tok, info := none }

/-- Loop of `ICUQueryAnalyzer.add_extra_tokens`:
`for part, node, i in zip(parts, query.nodes, range(1000))`,
returning the `(range, token)` pairs passed to `query.add_token`.
The `i < 1000` guard models the `range(1000)` bound of the `zip`. -/
def addExtraAux : List QueryPart → List QueryNode → Nat → List (TokenRange × ICUToken)
  | [], _, _ => []
  | _ :: _, [], _ => []
  | part :: parts, node :: nodes, i =>
    if i < 1000 then
      (if part.token.length ≤ 4 ∧ strIsdigit part.token ∧
          ¬ node.has_tokens (i + 1) .housenumber
       then [(⟨i, i + 1⟩, mkSyntheticHN part.token)] else [])
      ++ addExtraAux parts nodes (i + 1)
    else []

/-- `ICUQueryAnalyzer.add_extra_tokens`: add tokens to the query that
are not saved in the database. -/
def add_extra_tokens (parts : List QueryPart) (nodes : List QueryNode) :
    List (TokenRange × ICUToken) :=
  addExtraAux parts nodes 0

/-- The `POSTCODE` branch of `ICUQueryAnalyzer.rerank_tokens`: given a
`POSTCODE` token list `tlist` and the token lists starting at the same
node, add 0.39 to every competitor ending at the same slot that is not
itself `POSTCODE` and not a `HOUSENUMBER` sheltered by a short
(≤ 4 characters) postcode lookup word. -/
def rerank_postcode_step (tlist : TokenList) (starting : List TokenList) : List TokenList :=
  starting.map (fun repl =>
    if repl.stop = tlist.stop ∧ repl.ttype ≠ .postcode ∧
       (repl.ttype ≠ .housenumber ∨ 4 < (tlist.tokens.headD default).lookup_word.length)
    then repl.add_penalty (39/100) else repl)

/-- `token_assignment.TokenAssignment`: a possible assignment of token
types to the tokens of a tokenized query.  `nearItem` models the
`near_item` field. -/
structure TokenAssignment where
  penalty : ℚ := 0
  name : Option TokenRange := none
  address : List TokenRange := []
  housenumber : Option TokenRange := none
  postcode : Option TokenRange := none
  country : Option TokenRange := none
  nearItem : Option TokenRange := none
  qualifier : Option TokenRange := none
deriving DecidableEq, Repr

/-- One step of `TokenAssignment.from_ranges`: sort a typed range into
the matching role of the assignment (`WORD` ranges are dropped). -/
def TokenAssignment.add_range (out : TokenAssignment) (token : TypedRange) : TokenAssignment :=
  match token.ttype with
  | .part => { out with address := out.address ++ [token.trange] }
  | .housenumber => { out with housenumber := some token.trange }
  | .postcode => { out with postcode := some token.trange }
  | .country => { out with country := some token.trange }
  | .nearItem => { out with nearItem := some token.trange }
  | .qualifier => { out with qualifier := some token.trange }
  | .word => out

/-- `TokenAssignment.from_ranges`: create a token assignment from a
sequence of typed spans. -/
def TokenAssignment.from_ranges (ranges : List TypedRange) : TokenAssignment :=
  ranges.foldl TokenAssignment.add_range {}

/-- `token_assignment._TokenSequence`: the working state of the
enumerator — a sequence of typed ranges, a direction and a penalty. -/
structure TokenSeq where
  seq : List TypedRange
  direction : Int
  penalty : ℚ
deriving DecidableEq, Repr

/-- `_TokenSequence.end_pos`: the global end of the current sequence
(`self.seq[-1].trange.end if self.seq else 0`). -/
def TokenSeq.end_pos (s : TokenSeq) : Nat :=
  match s.seq.getLast? with
  | some tr => tr.trange.stop
  | none => 0

/-- `_TokenSequence.has_types`: does the sequence contain a typed range
of one of the given types? -/
def TokenSeq.has_types (s : TokenSeq) (ttypes : List TokenType) : Bool :=
  s.seq.any (fun t => t.ttype ∈ ttypes)

/-- `_TokenSequence.is_final`: country and category must be the final
term for left-to-right reading. -/
def TokenSeq.is_final (s : TokenSeq) : Bool :=
  decide (1 < s.seq.length) &&
  (match s.seq.getLast? with
   | some tr => decide (tr.ttype = .country ∨ tr.ttype = .nearItem)
   | none => false)

/-- `self.seq[0]` of a known-nonempty sequence. -/
def seqHead (l : List TypedRange) : TypedRange :=
  l.headD ⟨.word, ⟨0, 0⟩⟩

/-- `len(tempseq)` in the `QUALIFIER` branch of `appendable`, where
`tempseq = self.seq[1:] if self.seq[0].ttype == NEAR_ITEM else self.seq`. -/
def TokenSeq.tempseq_len (s : TokenSeq) : Nat :=
  if (seqHead s.seq).ttype = .nearItem then s.seq.length - 1 else s.seq.length

/-- `_TokenSequence.appendable`: the declarative grammar — is the token
type appendable to the sequence, and with which new direction? -/
def TokenSeq.appendable (self : TokenSeq) (ttype : TokenType) : Option Int :=
  if ttype = .word then none
  else if self.seq.isEmpty then
    (if ttype = .country then some (-1)
     else if ttype = .housenumber ∨ ttype = .qualifier then some 1
     else some self.direction)
  else if ttype = .part then
    (if self.direction = -1 ∧ self.seq.dropLast.any (fun t => t.ttype = .qualifier)
     then none else some self.direction)
  else if self.has_types [ttype] then none
  else if ttype = .housenumber then
    (if self.direction = 1 then
       (if self.seq.length = 1 ∧ (seqHead self.seq).ttype = .qualifier then none
        else if 2 < self.seq.length ∨ self.has_types [.postcode, .country] then none
        else some self.direction)
     else if self.direction = -1 ∨ self.has_types [.postcode, .country] then some (-1)
     else some self.direction)
  else if ttype = .postcode then
    (if self.direction = -1 then
       (if self.has_types [.housenumber, .qualifier] then none else some (-1))
     else if self.direction = 1 then
       (if self.has_types [.country] then none else some 1)
     else if self.has_types [.housenumber, .qualifier] then some 1
     else some self.direction)
  else if ttype = .country then
    (if self.direction = -1 then none else some 1)
  else if ttype = .nearItem then some self.direction
  else
    -- ttype = .qualifier
    (if self.direction = 1 then
       (if (self.seq.length = 1 ∧
             ((seqHead self.seq).ttype = .part ∨ (seqHead self.seq).ttype = .nearItem))
           ∨ (self.seq.length = 2 ∧ (seqHead self.seq).ttype = .nearItem ∧
              (self.seq.get? 1).map TypedRange.ttype = some .part)
        then some 1 else none)
     else if self.direction = -1 then some (-1)
     else if self.tempseq_len = 0 then some 1
     else if self.tempseq_len = 1 ∧ (seqHead self.seq).ttype = .housenumber then none
     else if 1 < self.tempseq_len ∨ self.has_types [.postcode, .country] then some (-1)
     else some 0)

/-- `_TokenSequence.advance`: extend the state by a token of the given
type ending at `end_pos`; either extend the last range (same type, no
forced break) or append a new range, adding the break penalty. -/
def TokenSeq.advance (self : TokenSeq) (ttype : TokenType) (end_pos : Nat)
    (force_break : Bool) (break_penalty : ℚ) : Option TokenSeq :=
  match self.appendable ttype with
  | none => none
  | some newdir =>
    match self.seq.getLast? with
    | none => some ⟨[⟨ttype, ⟨0, end_pos⟩⟩], newdir, self.penalty⟩
    | some last =>
      if ¬ force_break ∧ last.ttype = ttype then
        some ⟨self.seq.dropLast ++ [⟨ttype, last.trange.replace_end end_pos⟩],
              newdir, self.penalty⟩
      else
        some ⟨self.seq ++ [⟨ttype, ⟨last.trange.stop, end_pos⟩⟩],
              newdir, self.penalty + break_penalty⟩

/-- `_TokenSequence._adapt_penalty_from_priors` on explicit
direction/penalty state: two or more prior partials force a direction or
cost 0.8; more than two in a fixed direction reject the sequence. -/
def adaptPenaltyFromPriors (direction : Int) (penalty : ℚ) (priors : Nat) (new_dir : Int) :
    Option (Int × ℚ) :=
  if 2 ≤ priors then
    (if direction = 0 then some (new_dir, penalty)
     else if priors = 2 then some (direction, penalty + 8/10)
     else none)
  else some (direction, penalty)

/-- `_TokenSequence.recheck_sequence`: validate a complete sequence and
adapt direction and penalties (housenumber position, near-item with
housenumber).  Returns the adapted state, or `none` for rejection. -/
def TokenSeq.recheck_sequence (self : TokenSeq) : Option TokenSeq :=
  match self.seq.findIdx? (fun tr => tr.ttype = .housenumber) with
  | none => some self
  | some hnrpos =>
    match (if self.direction ≠ -1 then
             adaptPenaltyFromPriors self.direction self.penalty
               ((self.seq.take hnrpos).countP (fun t => t.ttype = .part)) (-1)
           else some (self.direction, self.penalty)) with
    | none => none
    | some (d1, p1) =>
      match (if d1 ≠ 1 then
               adaptPenaltyFromPriors d1 p1
                 ((self.seq.drop (hnrpos + 1)).countP (fun t => t.ttype = .part)) 1
             else some (d1, p1)) with
      | none => none
      | some (d2, p2) =>
        if self.seq.any (fun t => t.ttype = .nearItem) then
          some ⟨self.seq, d2, p2 + 1⟩
        else some ⟨self.seq, d2, p2⟩

/-- The query structure as read by the enumerator: the phrase types of
`source`, the break nodes, and the direction hint. -/
structure QueryStruct where
  source : List PhraseType
  nodes : List QueryNode
  dir_penalty : ℚ
deriving DecidableEq, Repr

/-- `QueryStruct.num_token_slots`: number of term positions (one less
than the number of break nodes). -/
def QueryStruct.num_token_slots (q : QueryStruct) : Nat :=
  q.nodes.length - 1

/-- `range(a, b)` of Python as a list. -/
def pyRange (a b : Nat) : List Nat :=
  List.range' a (b - a)

/-- `_TokenSequence._get_assignments_postcode`: the postcode-search
variant for sequences with a postcode adjoining a query boundary. -/
def TokenSeq.get_assignments_postcode (self : TokenSeq) (base : TokenAssignment)
    (query_len : Nat) : List TokenAssignment :=
  match base.postcode with
  | none => []
  | some pc =>
    if (pc.start = 0 ∧ self.direction ≠ -1) ∨ (pc.stop = query_len ∧ self.direction ≠ 1) then
      [{ base with penalty :=
           (if pc.start = 0 then self.penalty else self.penalty + 1/10)
           + (1/10) * ((max 0 ((base.address.length : ℤ) - 1) : ℤ) : ℚ) }]
    else []

/-- `_TokenSequence._get_assignments_address_forward`: left-to-right
readings of the address part, with optional name/address split of the
first address range. -/
def TokenSeq.get_assignments_address_forward (self : TokenSeq) (base : TokenAssignment)
    (query : QueryStruct) : List TokenAssignment :=
  match base.address with
  | [] => []
  | first :: rest =>
    if base.postcode.any (fun pc => TokenRange.lt pc first) then []
    else
      (let penalty :=
        if base.country = none ∧ self.direction = 1 ∧ 0 < query.dir_penalty
        then self.penalty + query.dir_penalty else self.penalty
      [{ base with penalty := penalty, name := some first, address := rest }]
      ++
      (if (base.housenumber.any (fun hn => first.stop < hn.start))
          ∨ (base.qualifier.any (fun ql => TokenRange.gt ql first))
          ∨ (((query.nodes.get? first.start).map QueryNode.ptype).getD .any ≠ .any)
       then []
       else
         let penalty :=
           if (base.housenumber.any (fun hn => TokenRange.gt hn first)) ∨ 1 < query.source.length
           then penalty + 1/4 else penalty
         let penalty :=
           if self.direction = 0 ∧ 0 < query.dir_penalty
           then penalty + query.dir_penalty else penalty
         (pyRange (first.start + 1) first.stop).map (fun i =>
           { base with
               name := some ⟨first.start, i⟩
               address := (⟨i, first.stop⟩ :: rest)
               penalty := penalty +
                 (((query.nodes.get? i).map QueryNode.word_break_penalty).getD 0) })))

/-- `_TokenSequence._get_assignments_address_backward`: right-to-left
readings of the address part, with optional split of the last address
range. -/
def TokenSeq.get_assignments_address_backward (self : TokenSeq) (base : TokenAssignment)
    (query : QueryStruct) : List TokenAssignment :=
  match base.address.getLast? with
  | none => []
  | some last =>
    if base.postcode.any (fun pc => TokenRange.gt pc last) then []
    else
      (let penalty :=
        if base.country = none ∧ self.direction = -1 ∧ query.dir_penalty < 0
        then self.penalty - query.dir_penalty else self.penalty
      (if self.direction = -1 ∨ 1 < base.address.length ∨ base.postcode.isSome
       then [{ base with
                 penalty := penalty
                 name := some last
                 address := base.address.dropLast }]
       else [])
      ++
      (if (base.housenumber.any (fun hn => hn.stop < last.start))
          ∨ (base.qualifier.any (fun ql => TokenRange.lt ql last))
          ∨ (((query.nodes.get? last.start).map QueryNode.ptype).getD .any ≠ .any)
       then []
       else
         let penalty :=
           if base.housenumber.any (fun hn => TokenRange.lt hn last)
           then penalty + 4/10 else penalty
         let penalty := if 1 < query.source.length then penalty + 1/4 else penalty
         let penalty :=
           if self.direction = 0 ∧ query.dir_penalty < 0
           then penalty - query.dir_penalty else penalty
         (pyRange (last.start + 1) last.stop).map (fun i =>
           { base with
               name := some ⟨i, last.stop⟩
               address := base.address.dropLast ++ [⟨last.start, i⟩]
               penalty := penalty +
                 (((query.nodes.get? i).map QueryNode.word_break_penalty).getD 0) })))

/-- Total number of token slots covered by the address ranges of an
assignment (`sum(t.end - t.start for t in base.address)`). -/
def addrTokenCount (base : TokenAssignment) : ℤ :=
  (base.address.map (fun t => (t.stop : ℤ) - t.start)).sum

/-- `_TokenSequence.get_assignments`: all assignment variants of a
complete sequence — postcode search, postcode/country-only search,
forward and backward address readings, special housenumber variant. -/
def TokenSeq.get_assignments (self : TokenSeq) (query : QueryStruct) : List TokenAssignment :=
  let base := TokenAssignment.from_ranges self.seq
  if 50 < addrTokenCount base then []
  else
    (if base.postcode.isSome ∧ ¬ base.address.isEmpty
     then self.get_assignments_postcode base query.num_token_slots else [])
    ++
    (if base.address.isEmpty then
       (if base.housenumber = none ∧
           (base.postcode.isSome ∨ base.country.isSome ∨ base.nearItem.isSome)
        then [{ base with penalty := self.penalty }] else [])
     else
       let self' := if base.postcode.any (fun pc => pc.start = 0)
                    then { self with penalty := self.penalty + 1/10 } else self
       (if self'.direction ≠ -1 then self'.get_assignments_address_forward base query else [])
       ++ (if self'.direction ≠ 1 then self'.get_assignments_address_backward base query else [])
       ++ (if base.housenumber.isSome ∧ base.qualifier = none
           then [{ base with penalty := self'.penalty }] else []))

/-- `token_assignment._append_state_to_todo`, as a pure step: the
assignments emitted for the new state and the state to push (if any). -/
def appendStateToTodo (query : QueryStruct) (newstate : Option TokenSeq) :
    List TokenAssignment × Option TokenSeq :=
  match newstate with
  | none => ([], none)
  | some ns =>
    if ns.end_pos = query.num_token_slots then
      (match ns.recheck_sequence with
       | some ns2 => (ns2.get_assignments query, none)
       | none => ([], none))
    else if ¬ ns.is_final then ([], some ns)
    else ([], none)

/-- Processing of one popped state in `yield_token_assignments`: advance
by every token list starting at the node, then by a synthetic partial
token if the node has one. -/
def nodeStep (query : QueryStruct) (state : TokenSeq) (node : QueryNode) :
    List TokenAssignment × List TokenSeq :=
  let results :=
    (node.starting.map (fun tl =>
      appendStateToTodo query
        (state.advance tl.ttype tl.stop true node.word_break_penalty)))
    ++
    (if node.hasPartialTok then
       [appendStateToTodo query
         (state.advance .part (state.end_pos + 1) (node.btype = .phrase)
           node.word_break_penalty)]
     else [])
  ((results.map Prod.fst).flatten, results.filterMap Prod.snd)

/-- The work-stack loop of `yield_token_assignments`, with explicit
fuel for termination. -/
def yieldLoop (query : QueryStruct) : Nat → List TokenSeq → List TokenAssignment
  | 0, _ => []
  | _ + 1, [] => []
  | fuel + 1, state :: todo =>
    match query.nodes.get? state.end_pos with
    | none => yieldLoop query fuel todo
    | some node =>
      (nodeStep query state node).1 ++
        yieldLoop query fuel ((nodeStep query state node).2 ++ todo)

/-- `token_assignment.yield_token_assignments`: possible word type
assignments to word positions, starting from the empty sequence with
direction 0 (ANY first phrase) or 1 (typed first phrase). -/
def yield_token_assignments (query : QueryStruct) (fuel : Nat) : List TokenAssignment :=
  yieldLoop query fuel
    [⟨[], if (query.source.headD .any) = .any then 0 else 1, 0⟩]

/-- Well-formedness of the node list: every token list starting at node
`i` ends after `i` and within the query, and a partial token exists only
at proper term positions. -/
def nodesWF (n : Nat) : Nat → List QueryNode → Bool
  | _, [] => true
  | i, node :: rest =>
    node.starting.all (fun tl => i < tl.stop ∧ tl.stop ≤ n) &&
    (!node.hasPartialTok || i < n) &&
    nodesWF n (i + 1) rest

/-- Well-formedness of a query structure: one node per slot boundary and
well-formed token lists. -/
def QueryStruct.wf (q : QueryStruct) : Bool :=
  q.nodes.length = q.num_token_slots + 1 && nodesWF q.num_token_slots 0 q.nodes

/-- The typed ranges of a sequence form a contiguous chain of nonempty
ranges starting at `pos`. -/
def chainFrom : Nat → List TypedRange → Prop
  | _, [] => True
  | pos, tr :: rest =>
    tr.trange.start = pos ∧ tr.trange.start < tr.trange.stop ∧ chainFrom tr.trange.stop rest

/-- End position of a chain starting at `p`. -/
def endAt : Nat → List TypedRange → Nat
  | p, [] => p
  | _, tr :: rest => endAt tr.trange.stop rest

/-- Invariant of reachable enumerator states: the ranges chain from 0,
no `WORD` ranges occur, and every type except `PARTIAL` occurs at most
once. -/
def TokenSeq.Inv (s : TokenSeq) : Prop :=
  chainFrom 0 s.seq ∧ (∀ t ∈ s.seq, t.ttype ≠ .word) ∧
  (∀ tt, tt ≠ TokenType.part → s.seq.countP (fun t => t.ttype = tt) ≤ 1)

/-- The singleton role of an assignment selected by token type
(`PARTIAL` and `WORD` have no singleton role). -/
def roleOf (a : TokenAssignment) : TokenType → Option TokenRange
  | .housenumber => a.housenumber
  | .postcode => a.postcode
  | .country => a.country
  | .nearItem => a.nearItem
  | .qualifier => a.qualifier
  | .part => none
  | .word => none

/-- All ranges assigned by a token assignment, in role order. -/
def TokenAssignment.ranges (a : TokenAssignment) : List TokenRange :=
  a.name.toList ++ a.address ++ a.housenumber.toList ++ a.postcode.toList ++
    a.country.toList ++ a.nearItem.toList ++ a.qualifier.toList

/-- Two token ranges do not overlap. -/
def disjointRanges (r1 r2 : TokenRange) : Prop :=
  r1.stop ≤ r2.start ∨ r2.stop ≤ r1.start

/-- The ranges are pairwise non-overlapping and their union is exactly
`[0, n)`. -/
def goodRanges (rs : List TokenRange) (n : Nat) : Prop :=
  (∀ k, (∃ r ∈ rs, r.start ≤ k ∧ k < r.stop) ↔ k < n) ∧ rs.Pairwise disjointRanges

/-- A one-term sample query ("a single partial word"): two break nodes,
a partial token at node 0, no phrase typing. -/
def sampleQuery : QueryStruct :=
  ⟨[.any], [⟨.breakStart, .any, 0, [], true⟩, ⟨.breakEnd, .any, 0, [], false⟩], 0⟩

/-- The name-only assignment the sample query produces. -/
def sampleAssignment : TokenAssignment :=
  { penalty := 0, name := some ⟨0, 1⟩ }

/-- Source tables of search results (`nominatim_api/results.py`
`SourceTable`). -/
inductive SourceTable where
  | placex
  | osmline
  | tiger
  | postcodeTab
  | country
deriving DecidableEq, Repr

/-- A search result as read by `NearSearch.lookup`: `bbox` holds the
area of the bounding box when one is present. -/
structure SearchResult where
  place_id : Option Int
  accuracy : ℚ
  rank_search : Int
  rank_address : Int
  source_table : SourceTable
  bbox : Option ℚ
deriving DecidableEq, Repr

/-- Strict comparison on the sort key `(accuracy, rank_search)` used by
`base.sort` in `NearSearch.lookup`. -/
def resultLT (a b : SearchResult) : Bool :=
  a.accuracy < b.accuracy ∨ (a.accuracy = b.accuracy ∧ a.rank_search < b.rank_search)

/-- Stable insertion into a list sorted by `resultLT`. -/
def insertResult (x : SearchResult) : List SearchResult → List SearchResult
  | [] => [x]
  | y :: ys => if resultLT x y then x :: y :: ys else y :: insertResult x ys

/-- `base.sort(key=lambda r: (r.accuracy, r.rank_search))`: a stable
sort by the key, modelled as stable insertion sort. -/
def sortResults : List SearchResult → List SearchResult
  | [] => []
  | x :: xs => insertResult x (sortResults xs)

/-- The retained-candidate filter of `NearSearch.lookup`: after sorting,
keep the PLACEX results within 0.5 accuracy of the best, with a bounding
box of area below 20 and an address rank in the window derived from the
best result. -/
def nearFilter (base : List SearchResult) : List SearchResult :=
  match sortResults base with
  | [] => []
  | r0 :: rest =>
    let max_accuracy := r0.accuracy + 1/2
    let min_rank : Int :=
      if r0.rank_address = 0 then 0 else if r0.rank_address < 26 then 1 else 26
    let max_rank : Int :=
      if r0.rank_address = 0 then 0
      else if r0.rank_address < 26 then min 25 (r0.rank_address + 4) else 30
    (r0 :: rest).filter (fun r =>
      decide (r.source_table = .placex) && decide (r.accuracy ≤ max_accuracy) &&
      (match r.bbox with | some a => decide (a < 20) | none => false) &&
      (decide (min_rank ≤ r.rank_address) && decide (r.rank_address ≤ max_rank)))

/-- `baseids = [b.place_id for b in base[:5] if b.place_id]` in
`NearSearch.lookup` (Python truthiness drops both `None` and `0`). -/
def nearAnchors (base : List SearchResult) : List Int :=
  ((nearFilter base).take 5).filterMap (fun b =>
    match b.place_id with
    | some p => if p ≠ 0 then some p else none
    | none => none)

end Nominatim

namespace Nominatim

/-- Every entry produced by the inner window loop spans `[first, k+1)`
for some loop position `k` in `[last, last+count)`. -/
theorem extractInner_range (terms : List QueryPart) (first : Nat) :
    ∀ count last word penalty e, e ∈ extractInner terms first word penalty last count →
      ∃ k, last ≤ k ∧ k < last + count ∧ e.trange = ⟨first, k + 1⟩ := by
  intro count
  induction count with
  | zero => intro last word penalty e he; simp [extractInner] at he
  | succ c ih =>
    intro last word penalty e he
    simp only [extractInner, List.mem_cons] at he
    rcases he with rfl | he
    · exact ⟨last, le_refl _, by omega, rfl⟩
    · obtain ⟨k, hk1, hk2, hk3⟩ := ih (last + 1) _ _ e he
      exact ⟨k, by omega, by omega, hk3⟩

/-- Conversely, the inner window loop hits every loop position in
`[last, last+count)`. -/
theorem extractInner_complete (terms : List QueryPart) (first : Nat) :
    ∀ count last word penalty k, last ≤ k → k < last + count →
      ∃ e ∈ extractInner terms first word penalty last count, e.trange = ⟨first, k + 1⟩ := by
  intro count
  induction count with
  | zero => intro last word penalty k h1 h2; omega
  | succ c ih =>
    intro last word penalty k h1 h2
    rcases Nat.eq_or_lt_of_le h1 with rfl | hlt
    · exact ⟨_, List.mem_cons_self _ _, rfl⟩
    · obtain ⟨e, he, hr⟩ := ih (last + 1) (joinWord terms word last)
        (addBreakPen terms penalty last) k hlt (by omega)
      exact ⟨e, List.mem_cons_of_mem _ he, hr⟩

/-- Every entry of the outer loop spans a window `[f, j)` for some `f`
with `first ≤ f < first + count` and `f < j ≤ max (f+1) (min (f+20)
terms.length)`. -/
theorem extractOuter_range (terms : List QueryPart) :
    ∀ count first e, e ∈ extractOuter terms first count →
      ∃ f, first ≤ f ∧ f < first + count ∧ e.trange.start = f ∧
        f < e.trange.stop ∧ e.trange.stop ≤ max (f + 1) (min (f + 20) terms.length) := by
  intro count
  induction count with
  | zero => intro first e he; simp [extractOuter] at he
  | succ c ih =>
    intro first e he
    simp only [extractOuter, List.mem_cons, List.mem_append] at he
    rcases he with rfl | he | he
    · exact ⟨first, le_refl _, by omega, rfl, by simp, by simp⟩
    · obtain ⟨k, hk1, hk2, hk3⟩ := extractInner_range terms first _ _ _ _ e he
      refine ⟨first, le_refl _, by omega, ?_, ?_, ?_⟩
      · rw [hk3]
      · rw [hk3]
        show first < k + 1
        omega
      · rw [hk3]
        show k + 1 ≤ max (first + 1) (min (first + 20) terms.length)
        omega
    · obtain ⟨f, hf1, hf2, hf3, hf4, hf5⟩ := ih (first + 1) e he
      exact ⟨f, by omega, by omega, hf3, hf4, hf5⟩

/-- The outer loop produces every window `[i, j)` with `first ≤ i <
first + count` and `i < j ≤ min (i+20) terms.length`. -/
theorem extractOuter_complete (terms : List QueryPart) :
    ∀ count first i j, first ≤ i → i < first + count → i < j →
      j ≤ min (i + 20) terms.length →
      ∃ e ∈ extractOuter terms first count, e.trange = ⟨i, j⟩ := by
  intro count
  induction count with
  | zero => intro first i j h1 h2; omega
  | succ c ih =>
    intro first i j h1 h2 h3 h4
    rcases Nat.eq_or_lt_of_le h1 with rfl | hlt
    · rcases Nat.eq_or_lt_of_le h3 with hj | hj
      · exact ⟨_, List.mem_cons_self _ _, by simp [← hj]⟩
      · obtain ⟨e, he, hr⟩ := extractInner_complete terms first
          ((min (first + 20) terms.length - (first + 1))) (first + 1)
          ((((terms.get? first).map QueryPart.token).getD ""))
          (PENALTY_IN_TOKEN_BREAK .word) (j - 1) (by omega) (by omega)
        refine ⟨e, ?_, ?_⟩
        · exact List.mem_cons_of_mem _ (List.mem_append_left _ he)
        · rw [hr]; congr 1; omega
    · obtain ⟨e, he, hr⟩ := ih (first + 1) i j hlt (by omega) h3 h4
      exact ⟨e, List.mem_cons_of_mem _ (List.mem_append_right _ he), hr⟩

/-- Counterexample to C3 as stated: on a phrase of 20 one-letter terms,
`extract_words` adds an entry whose token range has length 20, exceeding
the claimed maximal window length of 19. -/
theorem extract_words_window_gt19 :
    (extract_words (List.replicate 20 ⟨"a", "a", 0⟩) 0).filter
      (fun e => 19 < e.trange.stop - e.trange.start) ≠ [] := by
  decide

/-- C3 (amended: the bound is 20, not 19): every entry added by
`extract_words` spans a window `[i, j)` of the terms after `start` with
`j - i ≤ 20`, and every such window of length at most 20 is present. -/
theorem extract_words_windows (terms : List QueryPart) (start : Nat) :
    (∀ e ∈ extract_words terms start,
       start ≤ e.trange.start ∧ e.trange.start < e.trange.stop ∧
       e.trange.stop ≤ terms.length ∧ e.trange.stop - e.trange.start ≤ 20) ∧
    (∀ i j, start ≤ i → i < j → j ≤ terms.length → j - i ≤ 20 →
       ∃ e ∈ extract_words terms start, e.trange = ⟨i, j⟩) := by
  constructor
  · intro e he
    obtain ⟨f, hf1, hf2, hf3, hf4, hf5⟩ := extractOuter_range terms _ _ e he
    refine ⟨by omega, by rw [hf3]; omega, by omega, by omega⟩
  · intro i j h1 h2 h3 h4
    exact extractOuter_complete terms (terms.length - start) start i j h1 (by omega) h2
      (by omega)

/-- An entry is produced by the `add_extra_tokens` loop iff some index
`j` of the iteration (absolute position `j ≥ i0`, capped below 1000)
carries a qualifying pure-digit term without an exactly-covering
housenumber token. -/
theorem addExtraAux_mem (parts : List QueryPart) :
    ∀ (nodes : List QueryNode) (i0 : Nat) (e : TokenRange × ICUToken),
      e ∈ addExtraAux parts nodes i0 ↔
        ∃ j part node, i0 ≤ j ∧ j < 1000 ∧
          parts[j - i0]? = some part ∧ nodes[j - i0]? = some node ∧
          part.token.length ≤ 4 ∧ strIsdigit part.token = true ∧
          node.has_tokens (j + 1) .housenumber = false ∧
          e = (⟨j, j + 1⟩, mkSyntheticHN part.token) := by
  induction parts with
  | nil =>
    intro nodes i0 e
    simp [addExtraAux]
  | cons part parts ih =>
    intro nodes i0 e
    cases nodes with
    | nil =>
      simp only [addExtraAux, List.not_mem_nil, false_iff]
      rintro ⟨j, p, n, _, _, _, hn, _⟩
      simp at hn
    | cons node nodes =>
      by_cases hi : i0 < 1000
      · simp only [addExtraAux, if_pos hi, List.mem_append, ih]
        constructor
        · rintro (he | ⟨j, p, n, hj1, hj2, hp, hn, hc1, hc2, hc3, he⟩)
          · by_cases hcond : part.token.length ≤ 4 ∧ strIsdigit part.token = true ∧
                ¬ node.has_tokens (i0 + 1) .housenumber = true
            · rw [if_pos (by exact ⟨hcond.1, hcond.2.1, by simpa using hcond.2.2⟩)] at he
              simp only [List.mem_singleton] at he
              exact ⟨i0, part, node, le_refl _, hi, by simp, by simp,
                hcond.1, hcond.2.1, by simpa using hcond.2.2, he⟩
            · rw [if_neg (by
                  intro ⟨h1, h2, h3⟩
                  exact hcond ⟨h1, h2, by simpa using h3⟩)] at he
              simp at he
          · refine ⟨j, p, n, by omega, hj2, ?_, ?_, hc1, hc2, hc3, he⟩
            · have : j - i0 = (j - (i0 + 1)) + 1 := by omega
              rw [this, List.getElem?_cons_succ]
              exact hp
            · have : j - i0 = (j - (i0 + 1)) + 1 := by omega
              rw [this, List.getElem?_cons_succ]
              exact hn
        · rintro ⟨j, p, n, hj1, hj2, hp, hn, hc1, hc2, hc3, he⟩
          rcases Nat.eq_or_lt_of_le hj1 with rfl | hlt
          · simp only [Nat.sub_self, List.getElem?_cons_zero, Option.some.injEq] at hp hn
            subst hp; subst hn
            left
            rw [if_pos ⟨hc1, hc2, by simpa using hc3⟩]
            simp [he]
          · right
            refine ⟨j, p, n, hlt, hj2, ?_, ?_, hc1, hc2, hc3, he⟩
            · have : j - i0 = (j - (i0 + 1)) + 1 := by omega
              rw [this, List.getElem?_cons_succ] at hp
              exact hp
            · have : j - i0 = (j - (i0 + 1)) + 1 := by omega
              rw [this, List.getElem?_cons_succ] at hn
              exact hn
      · simp only [addExtraAux, if_neg hi, List.not_mem_nil, false_iff]
        rintro ⟨j, p, n, hj1, hj2, _⟩
        omega

/-- C6 (amended: the loop caps at the first 1000 terms): an entry is
added by `add_extra_tokens` exactly for the term positions `j < 1000`
whose transliterated token is a pure-digit string of length at most 4
with no HOUSENUMBER token covering exactly slot `j`; the added token is
the synthetic housenumber token of penalty 0.5 on range `[j, j+1)`. -/
theorem add_extra_tokens_spec (parts : List QueryPart) (nodes : List QueryNode)
    (e : TokenRange × ICUToken) :
    e ∈ add_extra_tokens parts nodes ↔
      ∃ j part node, j < 1000 ∧
        parts[j]? = some part ∧ nodes[j]? = some node ∧
        part.token.length ≤ 4 ∧ strIsdigit part.token = true ∧
        node.has_tokens (j + 1) .housenumber = false ∧
        e = (⟨j, j + 1⟩, mkSyntheticHN part.token) := by
  rw [add_extra_tokens, addExtraAux_mem]
  constructor
  · rintro ⟨j, p, n, _, hj2, hp, hn, h1, h2, h3, he⟩
    exact ⟨j, p, n, hj2, by simpa using hp, by simpa using hn, h1, h2, h3, he⟩
  · rintro ⟨j, p, n, hj2, hp, hn, h1, h2, h3, he⟩
    exact ⟨j, p, n, Nat.zero_le _, hj2, by simpa using hp, by simpa using hn, h1, h2, h3, he⟩

/-- Counterexample to C6 as stated: on a query of 1001 pure-digit terms
`"1"`, the term at index 1000 qualifies (pure digit, length ≤ 4, no
housenumber token on its slot) yet no synthetic housenumber token is
added for it — the loop stops after 1000 terms. -/
theorem add_extra_tokens_cap_cex :
    (List.replicate 1001 (⟨"1", "1", 0⟩ : QueryPart))[1000]? =
        some (⟨"1", "1", 0⟩ : QueryPart) ∧
    ("1".length ≤ 4 ∧ strIsdigit "1" = true) ∧
    (List.replicate 1002 (⟨.word, .any, 0, [], false⟩ : QueryNode))[1000]? =
        some (⟨.word, .any, 0, [], false⟩ : QueryNode) ∧
    (QueryNode.has_tokens ⟨.word, .any, 0, [], false⟩ 1001 .housenumber = false) ∧
    ¬ ∃ e ∈ add_extra_tokens (List.replicate 1001 (⟨"1", "1", 0⟩ : QueryPart))
          (List.replicate 1002 (⟨.word, .any, 0, [], false⟩ : QueryNode)),
        e.1 = (⟨1000, 1001⟩ : TokenRange) := by
  refine ⟨by rw [List.getElem?_replicate]; norm_num, ⟨by decide, by decide⟩,
    by rw [List.getElem?_replicate]; norm_num, by decide, ?_⟩
  rintro ⟨e, he, he1⟩
  rw [add_extra_tokens, addExtraAux_mem] at he
  obtain ⟨j, p, n, _, hj2, _, _, _, _, _, he⟩ := he
  rw [he] at he1
  have : j = 1000 := by
    have := congrArg TokenRange.start he1
    simpa using this
  omega

/-- C4 (amended: the exemption is for HOUSENUMBER competitors when the
POSTCODE list's own first lookup word has at most 4 characters): in the
rerank phase, a POSTCODE token list adds 0.39 to every token list
ending at the same slot, except POSTCODE lists and except HOUSENUMBER
lists when the postcode's lookup word is at most 4 characters long. -/
theorem rerank_postcode_spec (tlist : TokenList) (starting : List TokenList)
    (k : Nat) (repl : TokenList) (h : starting[k]? = some repl) :
    (rerank_postcode_step tlist starting)[k]? = some
      (if repl.stop = tlist.stop ∧ repl.ttype ≠ .postcode ∧
          (repl.ttype ≠ .housenumber ∨ 4 < (tlist.tokens.headD default).lookup_word.length)
       then repl.add_penalty (39/100) else repl) := by
  rw [rerank_postcode_step, List.getElem?_map, h]
  rfl

/-- Witness for C4's amended theorem at a concrete node. -/
theorem rerank_postcode_spec_witness :
    ([(⟨.part, 2, []⟩ : TokenList)][0]? = some (⟨.part, 2, []⟩ : TokenList)) ∧
    (rerank_postcode_step ⟨.postcode, 2, [mkSyntheticHN "12"]⟩ [⟨.part, 2, []⟩])[0]? = some
      (if (⟨.part, 2, []⟩ : TokenList).stop = (⟨.postcode, 2, [mkSyntheticHN "12"]⟩ : TokenList).stop ∧
          (⟨.part, 2, []⟩ : TokenList).ttype ≠ .postcode ∧
          ((⟨.part, 2, []⟩ : TokenList).ttype ≠ .housenumber ∨
            4 < ((⟨.postcode, 2, [mkSyntheticHN "12"]⟩ : TokenList).tokens.headD default).lookup_word.length)
       then (⟨.part, 2, []⟩ : TokenList).add_penalty (39/100) else (⟨.part, 2, []⟩ : TokenList)) :=
  ⟨rfl, rerank_postcode_spec _ _ 0 _ rfl⟩

/-- Counterexample to C4 as stated: a POSTCODE list with lookup word
`"12345"` (5 characters) shares its end with a HOUSENUMBER list whose
own lookup word `"123456"` has more than 4 characters.  The claim
exempts such a HOUSENUMBER competitor, but the code keys the exemption
on the POSTCODE's lookup word and adds 0.39 to the housenumber token. -/
theorem rerank_postcode_cex :
    (4 < "123456".length) ∧
    (0 : ℚ) + 39/100 = 39/100 ∧
    rerank_postcode_step
        ⟨.postcode, 1, [{ penalty := 0, token := 1, count := 1, addr_count := 1,
                          lookup_word := "12345", word_token := "12345", info := none }]⟩
        [⟨.housenumber, 1, [{ penalty := 0, token := 2, count := 1, addr_count := 1,
                              lookup_word := "123456", word_token := "123456", info := none }]⟩] =
      [⟨.housenumber, 1, [{ penalty := (0 : ℚ) + 39/100, token := 2, count := 1, addr_count := 1,
                            lookup_word := "123456", word_token := "123456", info := none }]⟩] := by
  refine ⟨by decide, by norm_num, rfl⟩

/-- C5: the anchor candidates retained by `NearSearch.lookup` are
exactly the PLACEX results of the sorted inner result list within 0.5
accuracy of the best result `r0`, with a bounding box of area below 20,
and with address rank in the window `[0,0]` / `[1, min 25 (r0+4)]` /
`[26,30]` determined by `r0.rank_address`; at most the first 5 of their
place ids become anchors. -/
theorem near_search_anchor_selection (base : List SearchResult)
    (r0 : SearchResult) (rest : List SearchResult)
    (h : sortResults base = r0 :: rest) :
    (∀ r, r ∈ nearFilter base ↔
      (r ∈ sortResults base ∧ r.source_table = .placex ∧
       r.accuracy ≤ r0.accuracy + 1/2 ∧ (∃ a, r.bbox = some a ∧ a < 20) ∧
       (if r0.rank_address = 0 then r.rank_address = 0
        else if r0.rank_address < 26 then
          1 ≤ r.rank_address ∧ r.rank_address ≤ min 25 (r0.rank_address + 4)
        else 26 ≤ r.rank_address ∧ r.rank_address ≤ 30))) ∧
    nearAnchors base =
      ((nearFilter base).take 5).filterMap (fun b =>
        match b.place_id with
        | some p => if p ≠ 0 then some p else none
        | none => none) ∧
    (nearAnchors base).length ≤ 5 := by
  refine ⟨?_, rfl, ?_⟩
  · intro r
    simp only [nearFilter, h, List.mem_filter, Bool.and_eq_true, decide_eq_true_eq]
    constructor
    · rintro ⟨hmem, ⟨⟨h1, h2⟩, h3⟩, h4, h5⟩
      refine ⟨hmem, h1, h2, ?_, ?_⟩
      · cases hb : r.bbox with
        | none => rw [hb] at h3; simp at h3
        | some a => rw [hb] at h3; exact ⟨a, rfl, by simpa using h3⟩
      · split_ifs at h4 h5 ⊢ <;> omega
    · rintro ⟨hmem, h1, h2, ⟨a, hb, ha⟩, hw⟩
      refine ⟨hmem, ⟨⟨h1, h2⟩, by rw [hb]; simpa using ha⟩, ?_, ?_⟩ <;>
        · split_ifs at hw ⊢ <;> omega
  · rw [nearAnchors]
    calc (((nearFilter base).take 5).filterMap _).length
        ≤ ((nearFilter base).take 5).length := List.length_filterMap_le _ _
      _ ≤ 5 := by simp [List.length_take]

/-- `endAt` of a sequence ending in `y` is `y`'s stop. -/
theorem endAt_append_single (y : TypedRange) :
    ∀ (xs : List TypedRange) (p : Nat), endAt p (xs ++ [y]) = y.trange.stop := by
  intro xs
  induction xs with
  | nil => intro p; rfl
  | cons x xs ih => intro p; exact ih x.trange.stop

/-- `end_pos` is the chain end of the sequence from 0. -/
theorem end_pos_eq_endAt (s : TokenSeq) : s.end_pos = endAt 0 s.seq := by
  rcases List.eq_nil_or_concat s.seq with h | ⟨ys, y, h⟩
  · rw [TokenSeq.end_pos, h]; rfl
  · rw [List.concat_eq_append] at h
    rw [TokenSeq.end_pos, h, List.getLast?_concat, endAt_append_single]

/-- Chains decompose over a final element. -/
theorem chainFrom_snoc (y : TypedRange) :
    ∀ (xs : List TypedRange) (p : Nat),
      chainFrom p (xs ++ [y]) ↔
        chainFrom p xs ∧ y.trange.start = endAt p xs ∧ y.trange.start < y.trange.stop := by
  intro xs
  induction xs with
  | nil =>
    intro p
    simp only [List.nil_append, chainFrom, endAt]
    constructor
    · rintro ⟨h1, h2, _⟩; exact ⟨trivial, h1, h2⟩
    · rintro ⟨_, h1, h2⟩; exact ⟨h1, h2, trivial⟩
  | cons x xs ih =>
    intro p
    simp only [List.cons_append, chainFrom, endAt, List.append_eq, ih]
    tauto

/-- A chain only moves forward. -/
theorem chainFrom_le_endAt :
    ∀ (xs : List TypedRange) (p : Nat), chainFrom p xs → p ≤ endAt p xs := by
  intro xs
  induction xs with
  | nil => intro p _; exact le_refl p
  | cons x xs ih =>
    rintro p ⟨h1, h2, h3⟩
    have := ih x.trange.stop h3
    rw [endAt]
    omega

/-- Every member of a chain is a nonempty range within the chain's
bounds. -/
theorem chainFrom_mem_bounds :
    ∀ (xs : List TypedRange) (p : Nat), chainFrom p xs → ∀ tr ∈ xs,
      p ≤ tr.trange.start ∧ tr.trange.start < tr.trange.stop ∧
      tr.trange.stop ≤ endAt p xs := by
  intro xs
  induction xs with
  | nil => intro p _ tr htr; exact absurd htr (List.not_mem_nil tr)
  | cons x xs ih =>
    rintro p ⟨h1, h2, h3⟩ tr htr
    have hle := chainFrom_le_endAt xs x.trange.stop h3
    rcases List.mem_cons.mp htr with heq | htr
    · rw [heq]
      exact ⟨by omega, h2, by rw [endAt]; exact hle⟩
    · obtain ⟨b1, b2, b3⟩ := ih x.trange.stop h3 tr htr
      exact ⟨by omega, b2, by rw [endAt]; exact b3⟩

/-- The ranges of a chain cover exactly the interval from its start to
its end. -/
theorem chainFrom_cover :
    ∀ (xs : List TypedRange) (p : Nat), chainFrom p xs → ∀ k,
      (∃ tr ∈ xs, tr.trange.start ≤ k ∧ k < tr.trange.stop) ↔
        (p ≤ k ∧ k < endAt p xs) := by
  intro xs
  induction xs with
  | nil =>
    intro p _ k
    simp only [List.not_mem_nil, endAt]
    constructor
    · rintro ⟨tr, h, _⟩; exact absurd h (by simp)
    · omega
  | cons x xs ih =>
    rintro p ⟨h1, h2, h3⟩ k
    rw [endAt]
    constructor
    · rintro ⟨tr, htr, hk1, hk2⟩
      have hle := chainFrom_le_endAt xs x.trange.stop h3
      rcases List.mem_cons.mp htr with heq | htr
      · rw [heq] at hk1 hk2
        omega
      · have := (ih x.trange.stop h3 k).mp ⟨tr, htr, hk1, hk2⟩
        omega
    · rintro ⟨hk1, hk2⟩
      by_cases hx : k < x.trange.stop
      · exact ⟨x, List.mem_cons_self _ _, by omega, hx⟩
      · obtain ⟨tr, htr, hr⟩ := (ih x.trange.stop h3 k).mpr ⟨by omega, hk2⟩
        exact ⟨tr, List.mem_cons_of_mem _ htr, hr⟩

/-- The ranges of a chain are pairwise disjoint. -/
theorem chainFrom_pairwise :
    ∀ (xs : List TypedRange) (p : Nat), chainFrom p xs →
      xs.Pairwise (fun a b => disjointRanges a.trange b.trange) := by
  intro xs
  induction xs with
  | nil => intro p _; exact List.Pairwise.nil
  | cons x xs ih =>
    rintro p ⟨h1, h2, h3⟩
    refine List.Pairwise.cons ?_ (ih x.trange.stop h3)
    intro b hb
    obtain ⟨b1, _, _⟩ := chainFrom_mem_bounds xs x.trange.stop h3 b hb
    exact Or.inl b1

/-- A list with a known last element decomposes as `dropLast ++ [last]`. -/
theorem getLast?_decomp {α : Type} :
    ∀ (l : List α) (a : α), l.getLast? = some a → l = l.dropLast ++ [a] := by
  intro l
  induction l with
  | nil => intro a h; exact absurd h (by simp)
  | cons x xs ih =>
    intro a h
    cases xs with
    | nil => simp_all
    | cons y ys =>
      rw [List.getLast?_cons_cons] at h
      have := ih a h
      calc x :: y :: ys = x :: ((y :: ys).dropLast ++ [a]) := by rw [← this]
        _ = (x :: y :: ys).dropLast ++ [a] := by simp

/-- `WORD` is never appendable. -/
theorem appendable_word (s : TokenSeq) : s.appendable .word = none := by
  simp [TokenSeq.appendable]

/-- A sequence without ranges of a type has zero count of that type. -/
theorem has_types_false_countP (s : TokenSeq) (tt : TokenType)
    (h : s.has_types [tt] = false) :
    s.seq.countP (fun t => t.ttype = tt) = 0 := by
  simp only [TokenSeq.has_types, List.any_eq_false] at h
  rw [List.countP_eq_zero]
  intro t ht
  have := h t ht
  simpa using this

/-- The grammar rejects appending a singleton type already present. -/
theorem dup_special_appendable_none (s : TokenSeq) (tt : TokenType)
    (hspec : tt = .housenumber ∨ tt = .postcode ∨ tt = .country ∨
             tt = .nearItem ∨ tt = .qualifier)
    (hhas : s.has_types [tt] = true) : s.appendable tt = none := by
  have hne : s.seq.isEmpty = false := by
    rcases List.any_eq_true.mp hhas with ⟨x, hx, _⟩
    cases h : s.seq with
    | nil => rw [h] at hx; exact absurd hx (List.not_mem_nil x)
    | cons _ _ => rfl
  rcases hspec with rfl | rfl | rfl | rfl | rfl <;>
    simp [TokenSeq.appendable, hhas, hne]

/-- A successful append of a non-word non-partial type to a nonempty
sequence implies the type was not present yet. -/
theorem appendable_fresh (s : TokenSeq) (tt : TokenType) (d : Int)
    (h : s.appendable tt = some d) (_hne : s.seq.isEmpty = false)
    (hw : tt ≠ .word) (hp : tt ≠ .part) : s.has_types [tt] = false := by
  cases htt : s.has_types [tt]
  · rfl
  · have hd : tt = .housenumber ∨ tt = .postcode ∨ tt = .country ∨
        tt = .nearItem ∨ tt = .qualifier := by
      cases tt <;> simp_all
    rw [dup_special_appendable_none s tt hd htt] at h
    exact absurd h (by simp)

/-- A successful `advance` from a state satisfying the invariant, to a
strictly larger end position, preserves the invariant and lands exactly
at the new end position. -/
theorem advance_inv (s : TokenSeq) (tt : TokenType) (e : Nat) (fb : Bool) (bp : ℚ)
    (s' : TokenSeq) (hInv : s.Inv) (he : s.end_pos < e)
    (hadv : s.advance tt e fb bp = some s') :
    s'.Inv ∧ s'.end_pos = e := by
  obtain ⟨hchain, hword, hcount⟩ := hInv
  cases happ : s.appendable tt with
  | none =>
    rw [TokenSeq.advance, happ] at hadv
    exact absurd hadv (by simp)
  | some newdir =>
  have htt_word : tt ≠ .word := by
    intro hw; rw [hw, appendable_word] at happ; exact absurd happ (by simp)
  cases hlast : s.seq.getLast? with
  | none =>
    have hend0 : s.end_pos = 0 := by rw [TokenSeq.end_pos, hlast]
    simp only [TokenSeq.advance, happ, hlast] at hadv
    injection hadv with hadv
    subst hadv
    refine ⟨⟨?_, ?_, ?_⟩, ?_⟩
    · show (⟨tt, ⟨0, e⟩⟩ : TypedRange).trange.start = 0 ∧
        (⟨tt, ⟨0, e⟩⟩ : TypedRange).trange.start < (⟨tt, ⟨0, e⟩⟩ : TypedRange).trange.stop ∧
        chainFrom (⟨tt, ⟨0, e⟩⟩ : TypedRange).trange.stop []
      exact ⟨rfl, by show (0 : ℕ) < e; omega, trivial⟩
    · intro t ht
      simp only [List.mem_singleton] at ht
      rw [ht]
      exact htt_word
    · intro tt' _
      have h1 := List.countP_le_length (l := [(⟨tt, ⟨0, e⟩⟩ : TypedRange)])
        (fun t => decide (t.ttype = tt'))
      simpa using h1
    · rfl
  | some last =>
    have hdecomp := getLast?_decomp s.seq last hlast
    have hstop : s.end_pos = last.trange.stop := by rw [TokenSeq.end_pos, hlast]
    have hsnoc := (chainFrom_snoc last s.seq.dropLast 0).mp (by rw [← hdecomp]; exact hchain)
    simp only [TokenSeq.advance, happ, hlast] at hadv
    by_cases hext : ¬ fb = true ∧ last.ttype = tt
    · rw [if_pos hext] at hadv
      injection hadv with hadv
      subst hadv
      refine ⟨⟨?_, ?_, ?_⟩, ?_⟩
      · show chainFrom 0 (s.seq.dropLast ++ [⟨tt, last.trange.replace_end e⟩])
        rw [chainFrom_snoc]
        refine ⟨hsnoc.1, hsnoc.2.1, ?_⟩
        simp only [TokenRange.replace_end]
        omega
      · intro t ht
        rcases List.mem_append.mp ht with ht | ht
        · exact hword t (by rw [hdecomp]; exact List.mem_append_left _ ht)
        · simp only [List.mem_singleton] at ht
          rw [ht]
          exact htt_word
      · intro tt' hp'
        have hc := hcount tt' hp'
        rw [hdecomp, List.countP_append] at hc
        show List.countP _ (s.seq.dropLast ++ [⟨tt, last.trange.replace_end e⟩]) ≤ 1
        rw [List.countP_append]
        have heq1 : List.countP (fun t => decide (t.ttype = tt'))
            [(⟨tt, last.trange.replace_end e⟩ : TypedRange)] =
            List.countP (fun t => decide (t.ttype = tt')) [last] := by
          simp [List.countP_cons, hext.2]
        omega
      · show TokenSeq.end_pos _ = e
        rw [TokenSeq.end_pos]
        simp [List.getLast?_concat, TokenRange.replace_end]
    · rw [if_neg hext] at hadv
      injection hadv with hadv
      subst hadv
      refine ⟨⟨?_, ?_, ?_⟩, ?_⟩
      · show chainFrom 0 (s.seq ++ [⟨tt, ⟨last.trange.stop, e⟩⟩])
        rw [chainFrom_snoc]
        refine ⟨hchain, ?_, by show last.trange.stop < e; omega⟩
        show last.trange.stop = endAt 0 s.seq
        rw [← end_pos_eq_endAt, hstop]
      · intro t ht
        rcases List.mem_append.mp ht with ht | ht
        · exact hword t ht
        · simp only [List.mem_singleton] at ht
          rw [ht]
          exact htt_word
      · intro tt' hp'
        have hc := hcount tt' hp'
        show List.countP _ (s.seq ++ [⟨tt, ⟨last.trange.stop, e⟩⟩]) ≤ 1
        rw [List.countP_append]
        by_cases heq : tt = tt'
        · have hne : s.seq.isEmpty = false := by
            cases hs : s.seq with
            | nil => rw [hs] at hlast; exact absurd hlast (by simp)
            | cons a l => rfl
          have hfresh : s.has_types [tt] = false := by
            refine appendable_fresh s tt newdir happ hne htt_word ?_
            intro hpart; rw [hpart] at heq; exact hp' heq.symm
          have hzero := has_types_false_countP s tt hfresh
          rw [heq] at hzero
          have hone := List.countP_le_length (l := [(⟨tt, ⟨last.trange.stop, e⟩⟩ : TypedRange)])
            (fun t => decide (t.ttype = tt'))
          simp only [List.length_singleton] at hone
          omega
        · have hz : List.countP (fun t => decide (t.ttype = tt'))
              [(⟨tt, ⟨last.trange.stop, e⟩⟩ : TypedRange)] = 0 := by
            simp [List.countP_cons, heq]
          omega
      · show TokenSeq.end_pos _ = e
        rw [TokenSeq.end_pos]
        simp [List.getLast?_concat]

/-- `recheck_sequence` only adapts direction and penalty, never the
range sequence. -/
theorem recheck_seq_eq (s s2 : TokenSeq) (h : s.recheck_sequence = some s2) :
    s2.seq = s.seq := by
  rw [TokenSeq.recheck_sequence] at h
  split at h
  · injection h with h; rw [← h]
  · split at h
    · exact absurd h (by simp)
    · split at h
      · exact absurd h (by simp)
      · split at h <;> (injection h with h; rw [← h])

/-- Reading off the well-formedness of the node at index `j + k`. -/
theorem nodesWF_get (n : Nat) :
    ∀ (l : List QueryNode) (j k : Nat) (node : QueryNode), nodesWF n j l = true →
      l.get? k = some node →
      (∀ tl ∈ node.starting, j + k < tl.stop ∧ tl.stop ≤ n) ∧
      (node.hasPartialTok = true → j + k < n) := by
  intro l
  induction l with
  | nil => intro j k node _ hget; exact absurd hget (by simp)
  | cons x xs ih =>
    intro j k node hwf hget
    rw [nodesWF, Bool.and_eq_true, Bool.and_eq_true] at hwf
    cases k with
    | zero =>
      simp only [List.get?] at hget
      injection hget with hget
      rw [← hget]
      constructor
      · intro tl htl
        have := List.all_eq_true.mp hwf.1.1 tl htl
        simpa using this
      · intro hpt
        have := hwf.1.2
        rw [hpt] at this
        simpa using this
    | succ k =>
      have := ih (j + 1) k node hwf.2 hget
      constructor
      · intro tl htl
        have h2 := this.1 tl htl
        omega
      · intro hpt
        have h2 := this.2 hpt
        omega

/-- `end_pos` only depends on the range sequence. -/
theorem end_pos_congr (s1 s2 : TokenSeq) (h : s1.seq = s2.seq) : s1.end_pos = s2.end_pos := by
  rw [TokenSeq.end_pos, TokenSeq.end_pos, h]

/-- The invariant only depends on the range sequence. -/
theorem Inv_congr (s1 s2 : TokenSeq) (h : s1.seq = s2.seq) (hi : s1.Inv) : s2.Inv := by
  obtain ⟨h1, h2, h3⟩ := hi
  exact ⟨by rw [← h]; exact h1, by rw [← h]; exact h2,
    fun tt ht => by rw [← h]; exact h3 tt ht⟩

/-- Emissions of `appendStateToTodo` stem from a full-length invariant
state, and pushed states keep the invariant. -/
theorem appendStateToTodo_spec (q : QueryStruct) (ns : TokenSeq) (hInv : ns.Inv) :
    (∀ a ∈ (appendStateToTodo q (some ns)).1,
       ∃ s : TokenSeq, s.Inv ∧ s.end_pos = q.num_token_slots ∧ a ∈ s.get_assignments q) ∧
    (∀ s', (appendStateToTodo q (some ns)).2 = some s' → s'.Inv) := by
  by_cases hend : ns.end_pos = q.num_token_slots
  · cases hrc : ns.recheck_sequence with
    | none =>
      have hred : appendStateToTodo q (some ns) = ([], none) := by
        simp [appendStateToTodo, hend, hrc]
      rw [hred]
      constructor
      · intro a ha; exact absurd ha (List.not_mem_nil a)
      · intro s' h; exact absurd h (by simp)
    | some ns2 =>
      have hred : appendStateToTodo q (some ns) = (ns2.get_assignments q, none) := by
        simp [appendStateToTodo, hend, hrc]
      rw [hred]
      have hseq := recheck_seq_eq ns ns2 hrc
      have hInv2 : ns2.Inv := Inv_congr ns ns2 hseq.symm hInv
      have hend2 : ns2.end_pos = q.num_token_slots := by
        rw [end_pos_congr ns2 ns hseq]; exact hend
      constructor
      · intro a ha
        exact ⟨ns2, hInv2, hend2, ha⟩
      · intro s' h; exact absurd h (by simp)
  · by_cases hf : ns.is_final = true
    · have hred : appendStateToTodo q (some ns) = ([], none) := by
        simp [appendStateToTodo, hend, hf]
      rw [hred]
      constructor
      · intro a ha; exact absurd ha (List.not_mem_nil a)
      · intro s' h; exact absurd h (by simp)
    · rw [Bool.not_eq_true] at hf
      have hred : appendStateToTodo q (some ns) = ([], some ns) := by
        simp [appendStateToTodo, hend, hf]
      rw [hred]
      constructor
      · intro a ha; exact absurd ha (List.not_mem_nil a)
      · intro s' h
        simp only [Option.some.injEq] at h
        rw [← h]
        exact hInv

/-- Emissions and pushes of one node step from an invariant state. -/
theorem nodeStep_spec (q : QueryStruct) (state : TokenSeq) (node : QueryNode)
    (hInv : state.Inv)
    (hnode : ∀ tl ∈ node.starting, state.end_pos < tl.stop) :
    (∀ a ∈ (nodeStep q state node).1,
       ∃ s : TokenSeq, s.Inv ∧ s.end_pos = q.num_token_slots ∧ a ∈ s.get_assignments q) ∧
    (∀ s' ∈ (nodeStep q state node).2, s'.Inv) := by
  have hres : ∀ r ∈
      ((node.starting.map (fun tl =>
          appendStateToTodo q
            (state.advance tl.ttype tl.stop true node.word_break_penalty)))
        ++
        (if node.hasPartialTok then
           [appendStateToTodo q
             (state.advance .part (state.end_pos + 1) (node.btype = .phrase)
               node.word_break_penalty)]
         else [])),
      (∀ a ∈ r.1, ∃ s : TokenSeq, s.Inv ∧ s.end_pos = q.num_token_slots ∧
          a ∈ s.get_assignments q) ∧
      (∀ s', r.2 = some s' → s'.Inv) := by
    intro r hr
    rcases List.mem_append.mp hr with hr | hr
    · obtain ⟨tl, htl, hr⟩ := List.mem_map.mp hr
      cases hadv : state.advance tl.ttype tl.stop true node.word_break_penalty with
      | none =>
        rw [hadv] at hr
        rw [← hr]
        constructor
        · intro a ha; exact absurd ha (by simp [appendStateToTodo])
        · intro s' h; exact absurd h (by simp [appendStateToTodo])
      | some ns =>
        rw [hadv] at hr
        obtain ⟨hnsInv, _⟩ := advance_inv state tl.ttype tl.stop true
          node.word_break_penalty ns hInv (hnode tl htl) hadv
        rw [← hr]
        exact appendStateToTodo_spec q ns hnsInv
    · have hr2 : r = appendStateToTodo q
          (state.advance .part (state.end_pos + 1) (node.btype = .phrase)
            node.word_break_penalty) := by
        by_cases hpt : node.hasPartialTok <;> simp [hpt] at hr
        · exact hr
      cases hadv : state.advance .part (state.end_pos + 1) (node.btype = .phrase)
          node.word_break_penalty with
      | none =>
        rw [hadv] at hr2
        rw [hr2]
        constructor
        · intro a ha; exact absurd ha (by simp [appendStateToTodo])
        · intro s' h; exact absurd h (by simp [appendStateToTodo])
      | some ns =>
        rw [hadv] at hr2
        obtain ⟨hnsInv, _⟩ := advance_inv state .part (state.end_pos + 1)
          (node.btype = .phrase) node.word_break_penalty ns hInv (by omega) hadv
        rw [hr2]
        exact appendStateToTodo_spec q ns hnsInv
  constructor
  · intro a ha
    rw [nodeStep] at ha
    simp only [List.mem_flatten, List.mem_map] at ha
    obtain ⟨l, ⟨r, hr, hl⟩, hal⟩ := ha
    exact (hres r hr).1 a (by rw [hl]; exact hal)
  · intro s' hs'
    rw [nodeStep] at hs'
    simp only [List.mem_filterMap] at hs'
    obtain ⟨r, hr, hsr⟩ := hs'
    exact (hres r hr).2 s' hsr

/-- Master lemma: every assignment the fueled loop emits comes from the
`get_assignments` of a complete state satisfying the invariant. -/
theorem yieldLoop_emission (q : QueryStruct) (hwf : q.wf = true) :
    ∀ (fuel : Nat) (todo : List TokenSeq), (∀ s ∈ todo, s.Inv) →
      ∀ a ∈ yieldLoop q fuel todo,
        ∃ s : TokenSeq, s.Inv ∧ s.end_pos = q.num_token_slots ∧
          a ∈ s.get_assignments q := by
  intro fuel
  induction fuel with
  | zero => intro todo _ a ha; exact absurd ha (by simp [yieldLoop])
  | succ fuel ih =>
    intro todo htodo a ha
    cases todo with
    | nil => exact absurd ha (by simp [yieldLoop])
    | cons state rest =>
      have hstate := htodo state (List.mem_cons_self _ _)
      have hrest : ∀ s ∈ rest, s.Inv := fun s hs => htodo s (List.mem_cons_of_mem _ hs)
      rw [yieldLoop] at ha
      cases hget : q.nodes.get? state.end_pos with
      | none =>
        rw [hget] at ha
        exact ih rest hrest a ha
      | some node =>
        rw [hget] at ha
        have hnode : ∀ tl ∈ node.starting, state.end_pos < tl.stop := by
          intro tl htl
          have hwf2 : nodesWF q.num_token_slots 0 q.nodes = true := by
            rw [QueryStruct.wf, Bool.and_eq_true] at hwf
            exact hwf.2
          have := (nodesWF_get q.num_token_slots q.nodes 0 state.end_pos node
            hwf2 hget).1 tl htl
          omega
        have hspec := nodeStep_spec q state node hstate hnode
        rcases List.mem_append.mp ha with ha | ha
        · exact hspec.1 a ha
        · refine ih ((nodeStep q state node).2 ++ rest) ?_ a ha
          intro s hs
          rcases List.mem_append.mp hs with hs | hs
          · exact hspec.2 s hs
          · exact hrest s hs

/-- `disjointRanges` is symmetric. -/
theorem disjointRanges_symm : Symmetric disjointRanges := by
  intro a b h
  rcases h with h | h
  · exact Or.inr h
  · exact Or.inl h

/-- `goodRanges` is stable under permutation. -/
theorem goodRanges_perm (rs1 rs2 : List TokenRange) (n : Nat)
    (hperm : List.Perm rs1 rs2) (h : goodRanges rs1 n) : goodRanges rs2 n := by
  obtain ⟨hcov, hpw⟩ := h
  constructor
  · intro k
    rw [← hcov k]
    constructor <;> rintro ⟨r, hr, hc⟩
    · exact ⟨r, hperm.mem_iff.mpr hr, hc⟩
    · exact ⟨r, hperm.mem_iff.mp hr, hc⟩
  · exact (List.Perm.pairwise_iff (fun h' => disjointRanges_symm h') hperm).mp hpw

/-- Splitting the head range of a good cover at an interior point keeps
the cover good. -/
theorem goodRanges_split (s0 i e0 : Nat) (zs : List TokenRange) (n : Nat)
    (h : goodRanges (⟨s0, e0⟩ :: zs) n) (h1 : s0 < i) (h2 : i < e0) :
    goodRanges (⟨s0, i⟩ :: ⟨i, e0⟩ :: zs) n := by
  obtain ⟨hcov, hpw⟩ := h
  constructor
  · intro k
    rw [← hcov k]
    constructor
    · rintro ⟨r, hr, hc1, hc2⟩
      rcases List.mem_cons.mp hr with heq | hr
      · refine ⟨⟨s0, e0⟩, List.mem_cons_self _ _, ?_⟩
        rw [heq] at hc1 hc2
        simp only at hc1 hc2 ⊢
        omega
      rcases List.mem_cons.mp hr with heq | hr
      · refine ⟨⟨s0, e0⟩, List.mem_cons_self _ _, ?_⟩
        rw [heq] at hc1 hc2
        simp only at hc1 hc2 ⊢
        omega
      · exact ⟨r, List.mem_cons_of_mem _ hr, hc1, hc2⟩
    · rintro ⟨r, hr, hc1, hc2⟩
      rcases List.mem_cons.mp hr with heq | hr
      · rw [heq] at hc1 hc2
        simp only at hc1 hc2
        by_cases hk : k < i
        · exact ⟨⟨s0, i⟩, List.mem_cons_self _ _, by simp only; omega⟩
        · exact ⟨⟨i, e0⟩, List.mem_cons_of_mem _ (List.mem_cons_self _ _),
            by simp only; omega⟩
      · exact ⟨r, List.mem_cons_of_mem _ (List.mem_cons_of_mem _ hr), hc1, hc2⟩
  · rcases List.pairwise_cons.mp hpw with ⟨hhead, hzs⟩
    refine List.pairwise_cons.mpr ⟨?_, List.pairwise_cons.mpr ⟨?_, hzs⟩⟩
    · intro z hz
      rcases List.mem_cons.mp hz with heq | hz
      · rw [heq]
        exact Or.inl (by simp only [disjointRanges]; omega)
      · rcases hhead z hz with hd | hd
        · exact Or.inl (by simp only [disjointRanges] at hd ⊢; omega)
        · exact Or.inr (by simp only [disjointRanges] at hd ⊢; omega)
    · intro z hz
      rcases hhead z hz with hd | hd
      · exact Or.inl (by simp only [disjointRanges] at hd ⊢; omega)
      · exact Or.inr (by simp only [disjointRanges] at hd ⊢; omega)

/-- Adding a `PARTIAL` range to an assignment appends it to the address
list, leaves the singleton roles alone, and adds its range to the range
multiset. -/
theorem add_range_part (out : TokenAssignment) (tr : TypedRange) (htt : tr.ttype = .part) :
    List.Perm (TokenAssignment.add_range out tr).ranges (out.ranges ++ [tr.trange]) ∧
    (TokenAssignment.add_range out tr).name = out.name ∧
    (TokenAssignment.add_range out tr).address = out.address ++ [tr.trange] ∧
    (∀ tt, roleOf (TokenAssignment.add_range out tr) tt = roleOf out tt) := by
  refine ⟨?_, ?_, ?_, ?_⟩
  · simp only [TokenAssignment.add_range, htt]
    rw [← Multiset.coe_eq_coe]
    simp only [TokenAssignment.ranges, ← Multiset.coe_add]
    abel
  · simp only [TokenAssignment.add_range, htt]
  · simp only [TokenAssignment.add_range, htt]
  · intro tt
    simp only [TokenAssignment.add_range, htt]
    cases tt <;> rfl

/-- Adding a singleton-role range to an assignment whose corresponding
role is empty fills that role and adds its range to the range
multiset. -/
theorem add_range_special (out : TokenAssignment) (tr : TypedRange)
    (hw : tr.ttype ≠ .word) (hp : tr.ttype ≠ .part)
    (hnone : roleOf out tr.ttype = none) :
    List.Perm (TokenAssignment.add_range out tr).ranges (out.ranges ++ [tr.trange]) ∧
    (TokenAssignment.add_range out tr).name = out.name ∧
    (TokenAssignment.add_range out tr).address = out.address ∧
    (∀ tt, tt ≠ tr.ttype → roleOf (TokenAssignment.add_range out tr) tt = roleOf out tt) := by
  cases httc : tr.ttype with
  | word => exact absurd httc hw
  | part => exact absurd httc hp
  | housenumber =>
    rw [httc] at hnone
    simp only [roleOf] at hnone
    refine ⟨?_, ?_, ?_, ?_⟩
    · simp only [TokenAssignment.add_range, httc]
      rw [← Multiset.coe_eq_coe]
      simp only [TokenAssignment.ranges, hnone, Option.toList, ← Multiset.coe_add]
      abel
    · simp only [TokenAssignment.add_range, httc]
    · simp only [TokenAssignment.add_range, httc]
    · intro tt htt
      simp only [TokenAssignment.add_range, httc]
      cases tt <;> simp_all [roleOf]
  | postcode =>
    rw [httc] at hnone
    simp only [roleOf] at hnone
    refine ⟨?_, ?_, ?_, ?_⟩
    · simp only [TokenAssignment.add_range, httc]
      rw [← Multiset.coe_eq_coe]
      simp only [TokenAssignment.ranges, hnone, Option.toList, ← Multiset.coe_add]
      abel
    · simp only [TokenAssignment.add_range, httc]
    · simp only [TokenAssignment.add_range, httc]
    · intro tt htt
      simp only [TokenAssignment.add_range, httc]
      cases tt <;> simp_all [roleOf]
  | country =>
    rw [httc] at hnone
    simp only [roleOf] at hnone
    refine ⟨?_, ?_, ?_, ?_⟩
    · simp only [TokenAssignment.add_range, httc]
      rw [← Multiset.coe_eq_coe]
      simp only [TokenAssignment.ranges, hnone, Option.toList, ← Multiset.coe_add]
      abel
    · simp only [TokenAssignment.add_range, httc]
    · simp only [TokenAssignment.add_range, httc]
    · intro tt htt
      simp only [TokenAssignment.add_range, httc]
      cases tt <;> simp_all [roleOf]
  | nearItem =>
    rw [httc] at hnone
    simp only [roleOf] at hnone
    refine ⟨?_, ?_, ?_, ?_⟩
    · simp only [TokenAssignment.add_range, httc]
      rw [← Multiset.coe_eq_coe]
      simp only [TokenAssignment.ranges, hnone, Option.toList, ← Multiset.coe_add]
      abel
    · simp only [TokenAssignment.add_range, httc]
    · simp only [TokenAssignment.add_range, httc]
    · intro tt htt
      simp only [TokenAssignment.add_range, httc]
      cases tt <;> simp_all [roleOf]
  | qualifier =>
    rw [httc] at hnone
    simp only [roleOf] at hnone
    refine ⟨?_, ?_, ?_, ?_⟩
    · simp only [TokenAssignment.add_range, httc]
      rw [← Multiset.coe_eq_coe]
      simp only [TokenAssignment.ranges, hnone, Option.toList, ← Multiset.coe_add]
      abel
    · simp only [TokenAssignment.add_range, httc]
    · simp only [TokenAssignment.add_range, httc]
    · intro tt htt
      simp only [TokenAssignment.add_range, httc]
      cases tt <;> simp_all [roleOf]

/-- Folding `add_range` over a sequence whose singleton types are fresh
with respect to the accumulator: the resulting range multiset is the
accumulator's plus the sequence's, the name is untouched, and the
address list collects exactly the `PARTIAL` ranges. -/
theorem foldl_add_range_spec :
    ∀ (seq : List TypedRange) (out : TokenAssignment),
      (∀ t ∈ seq, t.ttype ≠ .word) →
      (∀ tt, tt ≠ TokenType.part →
        seq.countP (fun t => t.ttype = tt) +
          (if (roleOf out tt).isSome then 1 else 0) ≤ 1) →
      List.Perm (List.foldl TokenAssignment.add_range out seq).ranges
          (out.ranges ++ seq.map TypedRange.trange) ∧
      (List.foldl TokenAssignment.add_range out seq).name = out.name ∧
      (List.foldl TokenAssignment.add_range out seq).address =
        out.address ++ (seq.filter (fun t => t.ttype = .part)).map TypedRange.trange := by
  intro seq
  induction seq with
  | nil =>
    intro out _ _
    refine ⟨by simp, rfl, by simp⟩
  | cons tr rest ih =>
    intro out hword hcount
    have hword_rest : ∀ t ∈ rest, t.ttype ≠ .word :=
      fun t ht => hword t (List.mem_cons_of_mem _ ht)
    have hw : tr.ttype ≠ .word := hword tr (List.mem_cons_self _ _)
    rw [List.foldl_cons]
    by_cases hp : tr.ttype = .part
    · obtain ⟨q1, q2, q3, q4⟩ := add_range_part out tr hp
      have hcount_rest : ∀ tt, tt ≠ TokenType.part →
          rest.countP (fun t => t.ttype = tt) +
            (if (roleOf (TokenAssignment.add_range out tr) tt).isSome then 1 else 0) ≤ 1 := by
        intro tt htt
        rw [q4 tt]
        have hc := hcount tt htt
        rw [List.countP_cons] at hc
        omega
      obtain ⟨p1, p2, p3⟩ := ih (TokenAssignment.add_range out tr) hword_rest hcount_rest
      refine ⟨?_, by rw [p2, q2], ?_⟩
      · refine p1.trans ?_
        refine (q1.append_right (rest.map TypedRange.trange)).trans ?_
        rw [List.map_cons, List.append_assoc]
        exact List.Perm.refl _
      · rw [p3, q3, List.filter_cons_of_pos (by simp [hp]), List.map_cons,
          List.append_assoc]
        rfl
    · have hnone : roleOf out tr.ttype = none := by
        have hc := hcount tr.ttype hp
        rw [List.countP_cons] at hc
        have h1 : (if decide (tr.ttype = tr.ttype) = true then 1 else 0) = 1 := by simp
        rw [h1] at hc
        cases hr : (roleOf out tr.ttype) with
        | none => rfl
        | some r =>
          rw [hr] at hc
          simp at hc
      obtain ⟨q1, q2, q3, q4⟩ := add_range_special out tr hw hp hnone
      have hcount_rest : ∀ tt, tt ≠ TokenType.part →
          rest.countP (fun t => t.ttype = tt) +
            (if (roleOf (TokenAssignment.add_range out tr) tt).isSome then 1 else 0) ≤ 1 := by
        intro tt htt
        by_cases heq : tt = tr.ttype
        · have hc := hcount tt htt
          rw [List.countP_cons] at hc
          rw [heq] at hc ⊢
          have h1 : (if decide (tr.ttype = tr.ttype) = true then 1 else 0) = 1 := by simp
          rw [h1] at hc
          have h2 : (if (roleOf (TokenAssignment.add_range out tr) tr.ttype).isSome = true
              then 1 else 0) ≤ 1 := by split <;> omega
          omega
        · rw [q4 tt heq]
          have hc := hcount tt htt
          rw [List.countP_cons] at hc
          omega
      obtain ⟨p1, p2, p3⟩ := ih (TokenAssignment.add_range out tr) hword_rest hcount_rest
      refine ⟨?_, by rw [p2, q2], ?_⟩
      · refine p1.trans ?_
        refine (q1.append_right (rest.map TypedRange.trange)).trans ?_
        rw [List.map_cons, List.append_assoc]
        exact List.Perm.refl _
      · rw [p3, q3, List.filter_cons_of_neg (by simp [hp])]

/-- `from_ranges` on an invariant sequence: range multiset preserved,
no name assigned, address ranges are exactly the `PARTIAL` ranges. -/
theorem from_ranges_spec (seq : List TypedRange)
    (hword : ∀ t ∈ seq, t.ttype ≠ .word)
    (hcount : ∀ tt, tt ≠ TokenType.part → seq.countP (fun t => t.ttype = tt) ≤ 1) :
    List.Perm (TokenAssignment.from_ranges seq).ranges (seq.map TypedRange.trange) ∧
    (TokenAssignment.from_ranges seq).name = none ∧
    (TokenAssignment.from_ranges seq).address =
      (seq.filter (fun t => t.ttype = .part)).map TypedRange.trange := by
  have hrole : ∀ tt, roleOf {} tt = none := by intro tt; cases tt <;> rfl
  have h := foldl_add_range_spec seq {} hword (by
    intro tt htt
    rw [hrole tt]
    simp only [Option.isSome_none, Bool.false_eq_true, if_false]
    simpa using hcount tt htt)
  obtain ⟨p1, p2, p3⟩ := h
  refine ⟨?_, p2, ?_⟩
  · refine p1.trans ?_
    have h0 : TokenAssignment.ranges {} = [] := rfl
    rw [h0, List.nil_append]
  · rw [TokenAssignment.from_ranges, p3]
    rfl

/-- The ranges of a chain from 0 to `n` are a good cover of `[0, n)`. -/
theorem chain_goodRanges (xs : List TypedRange) (n : Nat)
    (hchain : chainFrom 0 xs) (hend : endAt 0 xs = n) :
    goodRanges (xs.map TypedRange.trange) n := by
  constructor
  · intro k
    have h := chainFrom_cover xs 0 hchain k
    rw [hend] at h
    constructor
    · rintro ⟨r, hr, hc⟩
      obtain ⟨tr, htr, htr2⟩ := List.mem_map.mp hr
      rw [← htr2] at hc
      exact (h.mp ⟨tr, htr, hc⟩).2
    · intro hk
      obtain ⟨tr, htr, hc⟩ := h.mpr ⟨Nat.zero_le k, hk⟩
      exact ⟨tr.trange, List.mem_map_of_mem _ htr, hc⟩
  · exact List.Pairwise.map _ (fun a b h => h) (chainFrom_pairwise xs 0 hchain)

/-- Python `range(a, b)` membership. -/
theorem pyRange_mem (a b i : Nat) (h : i ∈ pyRange a b) : a ≤ i ∧ i < b := by
  rw [pyRange] at h
  rw [List.mem_range'_1] at h
  omega

/-- Forward address readings preserve good range covers. -/
theorem forward_goodRanges (s' : TokenSeq) (base : TokenAssignment) (q : QueryStruct)
    (n : Nat) (hname : base.name = none) (hgood : goodRanges base.ranges n) :
    ∀ a ∈ s'.get_assignments_address_forward base q, goodRanges a.ranges n := by
  intro a ha
  cases haddr : base.address with
  | nil =>
    simp only [TokenSeq.get_assignments_address_forward, haddr] at ha
    exact absurd ha (List.not_mem_nil a)
  | cons first rest =>
    obtain ⟨s0, e0⟩ := first
    simp only [TokenSeq.get_assignments_address_forward, haddr] at ha
    split at ha
    · exact absurd ha (List.not_mem_nil a)
    · rcases List.mem_append.mp ha with ha | ha
      · rw [List.mem_singleton] at ha
        rw [ha]
        have heq : ({ base with
            penalty := if base.country = none ∧ s'.direction = 1 ∧ 0 < q.dir_penalty
                       then s'.penalty + q.dir_penalty else s'.penalty,
            name := some ⟨s0, e0⟩, address := rest } : TokenAssignment).ranges =
            base.ranges := by
          simp [TokenAssignment.ranges, hname, haddr]
        rw [heq]
        exact hgood
      · split at ha
        · exact absurd ha (List.not_mem_nil a)
        · obtain ⟨i, hi, hai⟩ := List.mem_map.mp ha
          obtain ⟨hi1, hi2⟩ := pyRange_mem _ _ _ hi
          rw [← hai]
          have hbr : base.ranges = ⟨s0, e0⟩ ::
              (rest ++ (base.housenumber.toList ++ (base.postcode.toList ++
                (base.country.toList ++ (base.nearItem.toList ++ base.qualifier.toList))))) := by
            simp [TokenAssignment.ranges, hname, haddr]
          have har : (TokenAssignment.ranges { base with
              name := some ⟨s0, i⟩, address := (⟨i, e0⟩ :: rest),
              penalty := (if s'.direction = 0 ∧ 0 < q.dir_penalty
                 then (if (base.housenumber.any fun hn => TokenRange.gt hn ⟨s0, e0⟩) ∨
                          1 < q.source.length
                       then (if base.country = none ∧ s'.direction = 1 ∧ 0 < q.dir_penalty
                             then s'.penalty + q.dir_penalty else s'.penalty) + 1/4
                       else (if base.country = none ∧ s'.direction = 1 ∧ 0 < q.dir_penalty
                             then s'.penalty + q.dir_penalty else s'.penalty)) + q.dir_penalty
                 else (if (base.housenumber.any fun hn => TokenRange.gt hn ⟨s0, e0⟩) ∨
                          1 < q.source.length
                       then (if base.country = none ∧ s'.direction = 1 ∧ 0 < q.dir_penalty
                             then s'.penalty + q.dir_penalty else s'.penalty) + 1/4
                       else (if base.country = none ∧ s'.direction = 1 ∧ 0 < q.dir_penalty
                             then s'.penalty + q.dir_penalty else s'.penalty))) +
                (((q.nodes.get? i).map QueryNode.word_break_penalty).getD 0) }) =
              ⟨s0, i⟩ :: ⟨i, e0⟩ ::
              (rest ++ (base.housenumber.toList ++ (base.postcode.toList ++
                (base.country.toList ++ (base.nearItem.toList ++ base.qualifier.toList))))) := by
            simp [TokenAssignment.ranges]
          rw [har]
          refine goodRanges_split s0 i e0 _ n ?_ (by omega) (by omega)
          rw [← hbr]
          exact hgood

/-- Backward address readings preserve good range covers. -/
theorem backward_goodRanges (s' : TokenSeq) (base : TokenAssignment) (q : QueryStruct)
    (n : Nat) (hname : base.name = none) (hgood : goodRanges base.ranges n) :
    ∀ a ∈ s'.get_assignments_address_backward base q, goodRanges a.ranges n := by
  intro a ha
  cases hlast : base.address.getLast? with
  | none =>
    simp only [TokenSeq.get_assignments_address_backward, hlast] at ha
    exact absurd ha (List.not_mem_nil a)
  | some last =>
    obtain ⟨s0, e0⟩ := last
    have hdecomp := getLast?_decomp base.address ⟨s0, e0⟩ hlast
    have hbr : base.ranges = (base.address.dropLast ++ [(⟨s0, e0⟩ : TokenRange)]) ++
        (base.housenumber.toList ++ (base.postcode.toList ++ (base.country.toList ++
          (base.nearItem.toList ++ base.qualifier.toList)))) := by
      have h0 : base.ranges = base.address ++
          (base.housenumber.toList ++ (base.postcode.toList ++ (base.country.toList ++
            (base.nearItem.toList ++ base.qualifier.toList)))) := by
        simp [TokenAssignment.ranges, hname]
      rw [h0, ← hdecomp]
    have hmain : goodRanges ((⟨s0, e0⟩ : TokenRange) :: (base.address.dropLast ++
        (base.housenumber.toList ++ (base.postcode.toList ++ (base.country.toList ++
          (base.nearItem.toList ++ base.qualifier.toList)))))) n := by
      refine goodRanges_perm base.ranges _ n ?_ hgood
      rw [hbr, ← Multiset.coe_eq_coe]
      simp only [← Multiset.coe_add, ← Multiset.cons_coe, ← Multiset.singleton_add]
      abel
    simp only [TokenSeq.get_assignments_address_backward, hlast] at ha
    split at ha
    · exact absurd ha (List.not_mem_nil a)
    · rcases List.mem_append.mp ha with ha | ha
      · split at ha
        · rw [List.mem_singleton] at ha
          rw [ha]
          simpa [TokenAssignment.ranges] using hmain
        · exact absurd ha (List.not_mem_nil a)
      · split at ha
        · exact absurd ha (List.not_mem_nil a)
        · obtain ⟨i, hi, hai⟩ := List.mem_map.mp ha
          obtain ⟨hi1, hi2⟩ := pyRange_mem _ _ _ hi
          rw [← hai]
          have hsplit : goodRanges ((⟨s0, i⟩ : TokenRange) :: (⟨i, e0⟩ : TokenRange) ::
              (base.address.dropLast ++
                (base.housenumber.toList ++ (base.postcode.toList ++ (base.country.toList ++
                  (base.nearItem.toList ++ base.qualifier.toList)))))) n :=
            goodRanges_split s0 i e0 _ n hmain (by omega) (by omega)
          have hperm2 : List.Perm
              ((⟨s0, i⟩ : TokenRange) :: (⟨i, e0⟩ : TokenRange) ::
                (base.address.dropLast ++
                  (base.housenumber.toList ++ (base.postcode.toList ++ (base.country.toList ++
                    (base.nearItem.toList ++ base.qualifier.toList))))))
              ((⟨i, e0⟩ : TokenRange) ::
                ((base.address.dropLast ++ [(⟨s0, i⟩ : TokenRange)]) ++
                  (base.housenumber.toList ++ (base.postcode.toList ++ (base.country.toList ++
                    (base.nearItem.toList ++ base.qualifier.toList)))))) := by
            rw [← Multiset.coe_eq_coe]
            simp only [← Multiset.coe_add, ← Multiset.cons_coe, ← Multiset.singleton_add]
            abel
          have hfinal := goodRanges_perm _ _ n hperm2 hsplit
          simpa [TokenAssignment.ranges] using hfinal

/-- The postcode-search variant does not change the assigned ranges. -/
theorem postcode_variant_ranges (s' : TokenSeq) (base : TokenAssignment) (qlen : Nat) :
    ∀ a ∈ s'.get_assignments_postcode base qlen, a.ranges = base.ranges := by
  intro a ha
  cases hpc : base.postcode with
  | none =>
    simp only [TokenSeq.get_assignments_postcode, hpc] at ha
    exact absurd ha (List.not_mem_nil a)
  | some pc =>
    simp only [TokenSeq.get_assignments_postcode, hpc] at ha
    split at ha
    · rw [List.mem_singleton] at ha
      rw [ha]
      simp [TokenAssignment.ranges, hpc]
    · exact absurd ha (List.not_mem_nil a)

/-- Every assignment emitted from a complete invariant state has ranges
that pairwise-disjointly cover exactly `[0, num_token_slots)`. -/
theorem get_assignments_goodRanges (s : TokenSeq) (q : QueryStruct)
    (hInv : s.Inv) (hend : s.end_pos = q.num_token_slots) :
    ∀ a ∈ s.get_assignments q, goodRanges a.ranges q.num_token_slots := by
  intro a ha
  obtain ⟨hchain, hword, hcount⟩ := hInv
  obtain ⟨hperm, hname, haddr⟩ := from_ranges_spec s.seq hword hcount
  have hgood : goodRanges (TokenAssignment.from_ranges s.seq).ranges q.num_token_slots := by
    refine goodRanges_perm _ _ _ hperm.symm ?_
    exact chain_goodRanges s.seq _ hchain (by rw [← end_pos_eq_endAt]; exact hend)
  simp only [TokenSeq.get_assignments] at ha
  split at ha
  · exact absurd ha (List.not_mem_nil a)
  · rcases List.mem_append.mp ha with ha | ha
    · split at ha
      · have := postcode_variant_ranges s (TokenAssignment.from_ranges s.seq)
          q.num_token_slots a ha
        rw [this]
        exact hgood
      · exact absurd ha (List.not_mem_nil a)
    · split at ha
      · split at ha
        · rw [List.mem_singleton] at ha
          rw [ha]
          exact hgood
        · exact absurd ha (List.not_mem_nil a)
      · have hrest : ∀ (d : Int) (s3 : TokenSeq) (p : ℚ),
            a ∈ ((if d ≠ -1 then
                    s3.get_assignments_address_forward (TokenAssignment.from_ranges s.seq) q
                  else []) ++
                 (if d ≠ 1 then
                    s3.get_assignments_address_backward (TokenAssignment.from_ranges s.seq) q
                  else [])) ++
                (if (TokenAssignment.from_ranges s.seq).housenumber.isSome = true ∧
                    (TokenAssignment.from_ranges s.seq).qualifier = none then
                   [{ penalty := p,
                      name := (TokenAssignment.from_ranges s.seq).name,
                      address := (TokenAssignment.from_ranges s.seq).address,
                      housenumber := (TokenAssignment.from_ranges s.seq).housenumber,
                      postcode := (TokenAssignment.from_ranges s.seq).postcode,
                      country := (TokenAssignment.from_ranges s.seq).country,
                      nearItem := (TokenAssignment.from_ranges s.seq).nearItem,
                      qualifier := (TokenAssignment.from_ranges s.seq).qualifier }]
                 else []) →
            goodRanges a.ranges q.num_token_slots := by
          intro d s3 p ha2
          rcases List.mem_append.mp ha2 with ha2 | ha2
          · rcases List.mem_append.mp ha2 with ha2 | ha2
            · split at ha2
              · exact forward_goodRanges _ _ q _ hname hgood a ha2
              · exact absurd ha2 (List.not_mem_nil a)
            · split at ha2
              · exact backward_goodRanges _ _ q _ hname hgood a ha2
              · exact absurd ha2 (List.not_mem_nil a)
          · split at ha2
            · rw [List.mem_singleton] at ha2
              rw [ha2]
              exact hgood
            · exact absurd ha2 (List.not_mem_nil a)
        by_cases hc0 : ((TokenAssignment.from_ranges s.seq).postcode.any
            (fun pc => decide (pc.start = 0)) = true)
        · simp only [if_pos hc0] at ha
          exact hrest _ _ _ ha
        · simp only [if_neg hc0] at ha
          exact hrest _ _ _ ha

/-- C1: every `TokenAssignment` yielded by the enumerator on a
well-formed query assigns pairwise non-overlapping ranges whose union is
exactly the interval `[0, num_token_slots)`. -/
theorem assignment_ranges_partition (q : QueryStruct) (fuel : Nat) (hwf : q.wf = true)
    (a : TokenAssignment) (ha : a ∈ yield_token_assignments q fuel) :
    (∀ k, (∃ r ∈ a.ranges, r.start ≤ k ∧ k < r.stop) ↔ k < q.num_token_slots) ∧
    a.ranges.Pairwise disjointRanges := by
  rw [yield_token_assignments] at ha
  have hinit : ∀ s ∈ [(⟨[], if (q.source.headD .any) = .any then 0 else 1, 0⟩ : TokenSeq)],
      s.Inv := by
    intro s hs
    rw [List.mem_singleton] at hs
    rw [hs]
    refine ⟨trivial, ?_, ?_⟩
    · intro t ht
      exact absurd ht (List.not_mem_nil t)
    · intro tt _
      simp
  obtain ⟨s, hsInv, hsend, hmem⟩ := yieldLoop_emission q hwf fuel _ hinit a ha
  exact get_assignments_goodRanges s q hsInv hsend a hmem

/-- Witness for C1 at the one-term sample query. -/
theorem assignment_ranges_partition_witness :
    (sampleQuery.wf = true ∧ sampleAssignment ∈ yield_token_assignments sampleQuery 10) ∧
    ((∀ k, (∃ r ∈ sampleAssignment.ranges, r.start ≤ k ∧ k < r.stop) ↔
        k < sampleQuery.num_token_slots) ∧
     sampleAssignment.ranges.Pairwise disjointRanges) :=
  ⟨⟨by decide, by decide⟩,
   assignment_ranges_partition sampleQuery 10 (by decide) sampleAssignment (by decide)⟩

/-- The postcode-search variant does not change the address list. -/
theorem postcode_variant_addr (s' : TokenSeq) (base : TokenAssignment) (qlen : Nat) :
    ∀ a ∈ s'.get_assignments_postcode base qlen, a.address = base.address := by
  intro a ha
  cases hpc : base.postcode with
  | none =>
    simp only [TokenSeq.get_assignments_postcode, hpc] at ha
    exact absurd ha (List.not_mem_nil a)
  | some pc =>
    simp only [TokenSeq.get_assignments_postcode, hpc] at ha
    split at ha
    · rw [List.mem_singleton] at ha
      rw [ha]
    · exact absurd ha (List.not_mem_nil a)

/-- Forward address readings never increase the address slot count. -/
theorem forward_addr_le (s' : TokenSeq) (base : TokenAssignment) (q : QueryStruct)
    (hpos : ∀ r ∈ base.address, (r.start : ℤ) ≤ r.stop) :
    ∀ a ∈ s'.get_assignments_address_forward base q,
      addrTokenCount a ≤ addrTokenCount base := by
  intro a ha
  cases haddr : base.address with
  | nil =>
    simp only [TokenSeq.get_assignments_address_forward, haddr] at ha
    exact absurd ha (List.not_mem_nil a)
  | cons first rest =>
    obtain ⟨s0, e0⟩ := first
    have hpos0 : (s0 : ℤ) ≤ e0 := by
      have := hpos ⟨s0, e0⟩ (by rw [haddr]; exact List.mem_cons_self _ _)
      exact this
    have hbase : addrTokenCount base = ((e0 : ℤ) - s0) +
        (rest.map (fun t => (t.stop : ℤ) - t.start)).sum := by
      rw [addrTokenCount, haddr]
      simp
    simp only [TokenSeq.get_assignments_address_forward, haddr] at ha
    split at ha
    · exact absurd ha (List.not_mem_nil a)
    · rcases List.mem_append.mp ha with ha | ha
      · rw [List.mem_singleton] at ha
        rw [ha]
        show (rest.map (fun t => (t.stop : ℤ) - t.start)).sum ≤ addrTokenCount base
        omega
      · split at ha
        · exact absurd ha (List.not_mem_nil a)
        · obtain ⟨i, hi, hai⟩ := List.mem_map.mp ha
          obtain ⟨hi1, hi2⟩ := pyRange_mem _ _ _ hi
          rw [← hai]
          show addrTokenCount { base with
              name := some ⟨s0, i⟩, address := ((⟨i, e0⟩ : TokenRange) :: rest),
              penalty := _ } ≤ addrTokenCount base
          rw [addrTokenCount]
          simp only [List.map_cons, List.sum_cons]
          omega

/-- Backward address readings never increase the address slot count. -/
theorem backward_addr_le (s' : TokenSeq) (base : TokenAssignment) (q : QueryStruct)
    (hpos : ∀ r ∈ base.address, (r.start : ℤ) ≤ r.stop) :
    ∀ a ∈ s'.get_assignments_address_backward base q,
      addrTokenCount a ≤ addrTokenCount base := by
  intro a ha
  cases hlast : base.address.getLast? with
  | none =>
    simp only [TokenSeq.get_assignments_address_backward, hlast] at ha
    exact absurd ha (List.not_mem_nil a)
  | some last =>
    obtain ⟨s0, e0⟩ := last
    have hdecomp := getLast?_decomp base.address ⟨s0, e0⟩ hlast
    have hpos0 : (s0 : ℤ) ≤ e0 := by
      have hmem : (⟨s0, e0⟩ : TokenRange) ∈ base.address := by
        rw [hdecomp]
        exact List.mem_append_right _ (List.mem_singleton.mpr rfl)
      exact hpos ⟨s0, e0⟩ hmem
    have hbase : addrTokenCount base =
        (base.address.dropLast.map (fun t => (t.stop : ℤ) - t.start)).sum +
          ((e0 : ℤ) - s0) := by
      rw [addrTokenCount]
      conv_lhs => rw [hdecomp]
      simp
    simp only [TokenSeq.get_assignments_address_backward, hlast] at ha
    split at ha
    · exact absurd ha (List.not_mem_nil a)
    · rcases List.mem_append.mp ha with ha | ha
      · split at ha
        · rw [List.mem_singleton] at ha
          rw [ha]
          show (base.address.dropLast.map (fun t => (t.stop : ℤ) - t.start)).sum ≤
            addrTokenCount base
          omega
        · exact absurd ha (List.not_mem_nil a)
      · split at ha
        · exact absurd ha (List.not_mem_nil a)
        · obtain ⟨i, hi, hai⟩ := List.mem_map.mp ha
          obtain ⟨hi1, hi2⟩ := pyRange_mem _ _ _ hi
          rw [← hai]
          show addrTokenCount { base with
              name := some ⟨i, e0⟩,
              address := base.address.dropLast ++ [(⟨s0, i⟩ : TokenRange)],
              penalty := _ } ≤ addrTokenCount base
          rw [addrTokenCount]
          simp only [List.map_append, List.sum_append, List.map_cons, List.sum_cons,
            List.map_nil, List.sum_nil]
          omega

/-- All assignments emitted by `get_assignments` keep the total address
extent within 50 slots. -/
theorem get_assignments_addr_le (s : TokenSeq) (q : QueryStruct)
    (hpos : ∀ r ∈ (TokenAssignment.from_ranges s.seq).address, (r.start : ℤ) ≤ r.stop) :
    ∀ a ∈ s.get_assignments q, addrTokenCount a ≤ 50 := by
  intro a ha
  simp only [TokenSeq.get_assignments] at ha
  split at ha
  · exact absurd ha (List.not_mem_nil a)
  · rename_i hguard
    rw [not_lt] at hguard
    rcases List.mem_append.mp ha with ha | ha
    · split at ha
      · have := postcode_variant_addr s (TokenAssignment.from_ranges s.seq)
          q.num_token_slots a ha
        rw [addrTokenCount, this, ← addrTokenCount]
        exact hguard
      · exact absurd ha (List.not_mem_nil a)
    · split at ha
      · split at ha
        · rw [List.mem_singleton] at ha
          rw [ha]
          exact hguard
        · exact absurd ha (List.not_mem_nil a)
      · have hrest : ∀ (d : Int) (s3 : TokenSeq) (p : ℚ),
            a ∈ ((if d ≠ -1 then
                    s3.get_assignments_address_forward (TokenAssignment.from_ranges s.seq) q
                  else []) ++
                 (if d ≠ 1 then
                    s3.get_assignments_address_backward (TokenAssignment.from_ranges s.seq) q
                  else [])) ++
                (if (TokenAssignment.from_ranges s.seq).housenumber.isSome = true ∧
                    (TokenAssignment.from_ranges s.seq).qualifier = none then
                   [{ penalty := p,
                      name := (TokenAssignment.from_ranges s.seq).name,
                      address := (TokenAssignment.from_ranges s.seq).address,
                      housenumber := (TokenAssignment.from_ranges s.seq).housenumber,
                      postcode := (TokenAssignment.from_ranges s.seq).postcode,
                      country := (TokenAssignment.from_ranges s.seq).country,
                      nearItem := (TokenAssignment.from_ranges s.seq).nearItem,
                      qualifier := (TokenAssignment.from_ranges s.seq).qualifier }]
                 else []) →
            addrTokenCount a ≤ 50 := by
          intro d s3 p ha2
          rcases List.mem_append.mp ha2 with ha2 | ha2
          · rcases List.mem_append.mp ha2 with ha2 | ha2
            · split at ha2
              · have := forward_addr_le s3 _ q hpos a ha2
                omega
              · exact absurd ha2 (List.not_mem_nil a)
            · split at ha2
              · have := backward_addr_le s3 _ q hpos a ha2
                omega
              · exact absurd ha2 (List.not_mem_nil a)
          · split at ha2
            · rw [List.mem_singleton] at ha2
              rw [ha2]
              exact hguard
            · exact absurd ha2 (List.not_mem_nil a)
        by_cases hc0 : ((TokenAssignment.from_ranges s.seq).postcode.any
            (fun pc => decide (pc.start = 0)) = true)
        · simp only [if_pos hc0] at ha
          exact hrest _ _ _ ha
        · simp only [if_neg hc0] at ha
          exact hrest _ _ _ ha

/-- On an invariant state, all address extents are nonnegative. -/
theorem inv_addr_pos (s : TokenSeq) (hInv : s.Inv) :
    ∀ r ∈ (TokenAssignment.from_ranges s.seq).address, (r.start : ℤ) ≤ r.stop := by
  intro r hr
  obtain ⟨hchain, hword, hcount⟩ := hInv
  obtain ⟨_, _, haddr⟩ := from_ranges_spec s.seq hword hcount
  rw [haddr] at hr
  obtain ⟨tr, htr, hrt⟩ := List.mem_map.mp hr
  have htr2 : tr ∈ s.seq := List.mem_of_mem_filter htr
  obtain ⟨_, hlt, _⟩ := chainFrom_mem_bounds s.seq 0 hchain tr htr2
  rw [← hrt]
  omega

/-- C8: a complete sequence whose `PARTIAL` (address) ranges span more
than 50 slots is discarded by `get_assignments`, and the enumerator
never emits an assignment whose address ranges together span more than
50 slots. -/
theorem address_limit_50 (q : QueryStruct) (fuel : Nat) (hwf : q.wf = true) :
    (∀ (s : TokenSeq) (q2 : QueryStruct),
       50 < addrTokenCount (TokenAssignment.from_ranges s.seq) →
       s.get_assignments q2 = []) ∧
    (∀ a ∈ yield_token_assignments q fuel, addrTokenCount a ≤ 50) := by
  constructor
  · intro s q2 h
    simp only [TokenSeq.get_assignments]
    rw [if_pos h]
  · intro a ha
    rw [yield_token_assignments] at ha
    have hinit : ∀ s ∈ [(⟨[], if (q.source.headD .any) = .any then 0 else 1, 0⟩ : TokenSeq)],
        s.Inv := by
      intro s hs
      rw [List.mem_singleton] at hs
      rw [hs]
      refine ⟨trivial, ?_, ?_⟩
      · intro t ht
        exact absurd ht (List.not_mem_nil t)
      · intro tt _
        simp
    obtain ⟨s, hsInv, _, hmem⟩ := yieldLoop_emission q hwf fuel _ hinit a ha
    exact get_assignments_addr_le s q (inv_addr_pos s hsInv) a hmem

/-- Witness for C8: a 51-slot partial-only sequence yields nothing, and
the sample query's emissions stay within the limit. -/
theorem address_limit_50_witness :
    (sampleQuery.wf = true ∧
     50 < addrTokenCount (TokenAssignment.from_ranges [⟨.part, ⟨0, 51⟩⟩])) ∧
    (TokenSeq.get_assignments ⟨[⟨.part, ⟨0, 51⟩⟩], 0, 0⟩ sampleQuery = [] ∧
     (∀ a ∈ yield_token_assignments sampleQuery 10, addrTokenCount a ≤ 50)) :=
  ⟨⟨by decide, by decide⟩,
   (address_limit_50 sampleQuery 10 (by decide)).1 ⟨[⟨.part, ⟨0, 51⟩⟩], 0, 0⟩ sampleQuery
     (by decide),
   (address_limit_50 sampleQuery 10 (by decide)).2⟩

/-- C7: the enumerator never appends a range of one of the singleton
token types (housenumber, postcode, country, near-item, qualifier) to a
sequence that already contains a range of the same type: both the
grammar check `appendable` and the state transition `advance` reject
it. -/
theorem special_type_once (s : TokenSeq) (tt : TokenType) (e : Nat) (fb : Bool) (bp : ℚ)
    (hspec : tt = .housenumber ∨ tt = .postcode ∨ tt = .country ∨
             tt = .nearItem ∨ tt = .qualifier)
    (hhas : s.has_types [tt] = true) :
    s.appendable tt = none ∧ s.advance tt e fb bp = none := by
  have hne : s.seq.isEmpty = false := by
    rcases List.any_eq_true.mp hhas with ⟨x, hx, _⟩
    cases h : s.seq with
    | nil => rw [h] at hx; exact absurd hx (List.not_mem_nil x)
    | cons _ _ => rfl
  have happ : s.appendable tt = none := by
    rcases hspec with rfl | rfl | rfl | rfl | rfl <;>
      simp [TokenSeq.appendable, hhas, hne]
  exact ⟨happ, by simp [TokenSeq.advance, happ]⟩

/-- Witness for C7 at a concrete sequence that already holds a
postcode. -/
theorem special_type_once_witness :
    ((TokenType.postcode = .housenumber ∨ TokenType.postcode = .postcode ∨
      TokenType.postcode = .country ∨ TokenType.postcode = .nearItem ∨
      TokenType.postcode = .qualifier) ∧
     TokenSeq.has_types ⟨[⟨.postcode, ⟨0, 1⟩⟩], 0, 0⟩ [.postcode] = true) ∧
    (TokenSeq.appendable ⟨[⟨.postcode, ⟨0, 1⟩⟩], 0, 0⟩ .postcode = none ∧
     TokenSeq.advance ⟨[⟨.postcode, ⟨0, 1⟩⟩], 0, 0⟩ .postcode 2 true 0 = none) :=
  ⟨⟨by decide, by decide⟩,
   special_type_once ⟨[⟨.postcode, ⟨0, 1⟩⟩], 0, 0⟩ .postcode 2 true 0
     (by decide) (by decide)⟩

/-- C2 (amended: the code prefers `<postcode>,<address>` — base penalty
when the postcode starts at slot 0 — and charges +0.1 for
`<address>,<postcode>`): every postcode-search variant emitted by
`_get_assignments_postcode` has penalty `base` when the postcode starts
the query and `base + 0.1` otherwise, plus
`0.1 * max(0, |address| - 1)`. -/
theorem postcode_variant_penalty (s : TokenSeq) (base : TokenAssignment) (qlen : Nat)
    (pc : TokenRange) (hpc : base.postcode = some pc) (a : TokenAssignment)
    (ha : a ∈ s.get_assignments_postcode base qlen) :
    a.penalty = (if pc.start = 0 then s.penalty else s.penalty + 1/10)
      + (1/10) * ((max 0 ((base.address.length : ℤ) - 1) : ℤ) : ℚ) := by
  simp only [TokenSeq.get_assignments_postcode, hpc] at ha
  by_cases hg : (pc.start = 0 ∧ s.direction ≠ -1) ∨ (pc.stop = qlen ∧ s.direction ≠ 1)
  · rw [if_pos hg] at ha
    simp only [List.mem_singleton] at ha
    subst ha
    rfl
  · rw [if_neg hg] at ha
    exact absurd ha (List.not_mem_nil a)

/-- Witness for C2's amended theorem: `<postcode>,<address>` on a
two-slot query keeps the sequence penalty. -/
theorem postcode_variant_penalty_witness :
    (({ postcode := some ⟨0, 1⟩, address := [⟨1, 2⟩] } : TokenAssignment).postcode =
       some (⟨0, 1⟩ : TokenRange)) ∧
    ((TokenSeq.get_assignments_postcode ⟨[], 0, 0⟩
        { postcode := some ⟨0, 1⟩, address := [⟨1, 2⟩] } 2).head (by decide)).penalty =
      (if (⟨0, 1⟩ : TokenRange).start = 0 then (⟨[], 0, 0⟩ : TokenSeq).penalty
       else (⟨[], 0, 0⟩ : TokenSeq).penalty + 1/10)
      + (1/10) * ((max 0 ((([(⟨1, 2⟩ : TokenRange)].length : ℤ)) - 1) : ℤ) : ℚ) :=
  ⟨rfl, postcode_variant_penalty ⟨[], 0, 0⟩
    { postcode := some ⟨0, 1⟩, address := [⟨1, 2⟩] } 2 ⟨0, 1⟩ rfl _ (List.head_mem _)⟩

/-- Counterexample to C2 as stated: for `<address>,<postcode>` (postcode
ends the query) the emitted variant carries `base + 0.1`, not the base
penalty the claim asserts; the code comment says this order should
"give preference to address search". -/
theorem postcode_variant_penalty_cex :
    (TokenSeq.get_assignments_postcode ⟨[], 0, 0⟩
        { postcode := some ⟨1, 2⟩, address := [⟨0, 1⟩] } 2).map TokenAssignment.penalty =
      [(0 : ℚ) + 1/10 + (1/10) * ((max 0 (((1 : ℤ)) - 1) : ℤ) : ℚ)] ∧
    (0 : ℚ) + 1/10 + (1/10) * ((max 0 (((1 : ℤ)) - 1) : ℤ) : ℚ) = 1/10 ∧
    ((1 : ℚ)/10 ≠ 0) := by
  refine ⟨rfl, by norm_num, by norm_num⟩

/-- Witness for C5 at a concrete single-result inner search. -/
theorem near_search_anchor_selection_witness :
    sortResults [(⟨some 1, 0, 0, 0, .placex, some 1⟩ : SearchResult)] =
      (⟨some 1, 0, 0, 0, .placex, some 1⟩ : SearchResult) :: [] ∧
    (nearAnchors [(⟨some 1, 0, 0, 0, .placex, some 1⟩ : SearchResult)]).length ≤ 5 :=
  ⟨rfl, (near_search_anchor_selection
      [(⟨some 1, 0, 0, 0, .placex, some 1⟩ : SearchResult)]
      (⟨some 1, 0, 0, 0, .placex, some 1⟩ : SearchResult) [] rfl).2.2⟩

/-- C9: for a word-table row of type `H`, `from_db_row` yields the base
window penalty plus 0.1 per non-space non-digit character of the word
token, plus `0.2 * (len - 1)` when the word token is entirely non-digit. -/
theorem housenumber_row_penalty (row : WordRow) (base : ℚ) (h : row.type = "H") :
    (ICUToken.from_db_row row base).penalty =
      base + ((row.word_token.toList.filter (fun c => c ≠ ' ' ∧ ¬ c.isDigit)).length : ℚ) * (1/10)
           + (if row.word_token.toList.all (fun c => ¬ c.isDigit) then
                (2/10) * ((row.word_token.length : ℚ) - 1)
              else 0) := by
  simp only [ICUToken.from_db_row, h]
  rw [if_neg (by decide), if_neg (by decide), if_pos (by decide)]
  ring

/-- Witness for C9 at a concrete housenumber row (`"12b"`). -/
theorem housenumber_row_penalty_witness :
    ({ word_id := 7, word_token := "12b", type := "H", word := some "12b",
       info := none } : WordRow).type = "H" ∧
    (ICUToken.from_db_row
      { word_id := 7, word_token := "12b", type := "H", word := some "12b",
        info := none } 0).penalty =
      0 + (("12b".toList.filter (fun c => c ≠ ' ' ∧ ¬ c.isDigit)).length : ℚ) * (1/10)
        + (if "12b".toList.all (fun c => ¬ c.isDigit) then
             (2/10) * (("12b".length : ℚ) - 1)
           else 0) :=
  ⟨rfl, housenumber_row_penalty _ 0 rfl⟩

/-- C10: every token created from a word-table row has `count ≥ 1` and
`addr_count ≥ 1`, whatever the row's `info` field holds. -/
theorem from_db_row_counts_positive (row : WordRow) (base : ℚ) :
    1 ≤ (ICUToken.from_db_row row base).count ∧
    1 ≤ (ICUToken.from_db_row row base).addr_count := by
  constructor <;> simp [ICUToken.from_db_row]

end Nominatim
